import Mathlib

/-!
# The `p4` preprocessor (`preprocessor/preprocessor.go`)

A shallow embedding of `Preprocessor.Process` and of the Go standard-library
routines it calls (`bufio.Scanner` with `bufio.ScanLines`, `bytes.HasPrefix`,
`bytes.Fields`, `bytes.Join`, `bytes.Replace` / `strings.Replace`,
`strings.Trim`, `utf8.DecodeRune`, `unicode.IsSpace`).

Bytes are natural numbers (a byte is a value below 256); a Go `[]byte` or
`string` is a `List Nat`.  Go's `map[string]string` is an association list
with unique keys; the unspecified iteration order of `range` over a map is an
explicit argument (`RangeOrder`) that may reorder the entries differently at
every loop.
-/

namespace P4

/-! ## Bytes and text -/

/-- The bytes of an ASCII string literal. -/
def ascii (s : String) : List Nat := s.toList.map Char.toNat

/-- The newline byte. -/
def nl : Nat := 10

/-- The carriage-return byte. -/
def cr : Nat := 13

/-- The double-quote byte. -/
def quote : Nat := 34

/-- The directive token `bufDefine = []byte("#define")`. -/
def bufDefine : List Nat := [35, 100, 101, 102, 105, 110, 101]

/-- The directive token `bufInclude = []byte("#include")`. -/
def bufInclude : List Nat := [35, 105, 110, 99, 108, 117, 100, 101]

/-- The Go function `bytes.HasPrefix(b, prefix)`. -/
def hasPrefix (b pre : List Nat) : Bool := pre.isPrefixOf b

/-! ## `bufio.Scanner` with the default split function `bufio.ScanLines` -/

/-- The constant `bufio.MaxScanTokenSize = 64 * 1024`: the scanner's buffer
never grows beyond this many bytes. -/
def maxScanTokenSize : Nat := 64 * 1024

/-- Errors the scanner can report through `Scanner.Err()` when reading from an
in-memory byte stream. -/
inductive ScanError where
  | tooLong
  deriving DecidableEq, Repr

/-- The helper `dropCR` of `bufio.ScanLines`: drops one trailing `\r`. -/
def dropCR (data : List Nat) : List Nat :=
  if data.getLast? = some cr then data.dropLast else data

/-- All tokens `Scanner.Scan` delivers, followed by the terminal `Scanner.Err()`.
`cur` holds the bytes of the current line read so far.  A line is delivered when
its `\n` is found (the `\n` is removed, then one trailing `\r`); a final
unterminated non-empty line is delivered at end of input.  When the buffer is
full (`maxScanTokenSize` bytes) and holds no newline the scanner stops with
`ErrTooLong`.  The reader reports the end of the input after its last bytes,
as `strings.Reader`, `bytes.Buffer` and files do. -/
def scanFrom : List Nat → List Nat → List (List Nat) × Option ScanError
  | cur, [] =>
    if cur = [] then ([], none)
    else if maxScanTokenSize ≤ cur.length then ([], some .tooLong)
    else ([dropCR cur], none)
  | cur, b :: rest =>
    if maxScanTokenSize ≤ cur.length then ([], some .tooLong)
    else if b = nl then
      ((dropCR cur) :: (scanFrom [] rest).1, (scanFrom [] rest).2)
    else scanFrom (cur ++ [b]) rest

/-- The lines of the input as the scanner delivers them, and its final error. -/
def scanLines (input : List Nat) : List (List Nat) × Option ScanError :=
  scanFrom [] input

/-! ## `utf8.DecodeRune` and `unicode.IsSpace` -/

/-- The constant `utf8.RuneError`. -/
def runeError : Nat := 0xFFFD

/-- The Go function `utf8.DecodeRune(p)`: the rune at the start of `p` and its
width in bytes; an invalid encoding is `(RuneError, 1)`. -/
def decodeRune : List Nat → Nat × Nat
  | [] => (runeError, 0)
  | p0 :: rest =>
    if p0 < 0x80 then (p0, 1)
    else if p0 < 0xC2 ∨ 0xF5 ≤ p0 then (runeError, 1)
    else
      let sz := if p0 < 0xE0 then 2 else if p0 < 0xF0 then 3 else 4
      let lo := if p0 = 0xE0 then 0xA0 else if p0 = 0xF0 then 0x90 else 0x80
      let hi := if p0 = 0xED then 0x9F else if p0 = 0xF4 then 0x8F else 0xBF
      if rest.length + 1 < sz then (runeError, 1)
      else
        match rest with
        | [] => (runeError, 1)
        | b1 :: rest1 =>
          if b1 < lo ∨ hi < b1 then (runeError, 1)
          else if sz ≤ 2 then ((p0 % 32) * 64 + b1 % 64, 2)
          else
            match rest1 with
            | [] => (runeError, 1)
            | b2 :: rest2 =>
              if b2 < 0x80 ∨ 0xBF < b2 then (runeError, 1)
              else if sz ≤ 3 then ((p0 % 16) * 4096 + (b1 % 64) * 64 + b2 % 64, 3)
              else
                match rest2 with
                | [] => (runeError, 1)
                | b3 :: _ =>
                  if b3 < 0x80 ∨ 0xBF < b3 then (runeError, 1)
                  else ((p0 % 8) * 262144 + (b1 % 64) * 4096 + (b2 % 64) * 64 + b3 % 64, 4)

/-- The Go function `unicode.IsSpace(r)`. -/
def isSpace (r : Nat) : Bool :=
  (9 ≤ r ∧ r ≤ 13) ∨ r = 0x20 ∨ r = 0x85 ∨ r = 0xA0 ∨ r = 0x1680 ∨
  (0x2000 ≤ r ∧ r ≤ 0x200A) ∨ r = 0x2028 ∨ r = 0x2029 ∨ r = 0x202F ∨
  r = 0x205F ∨ r = 0x3000

/-! ## `bytes.Fields`, `bytes.Join`, `bytes.Replace`, `strings.Trim` -/

/-- The loop of `bytes.FieldsFunc(s, unicode.IsSpace)`.  `skip` counts the
remaining bytes of the rune being consumed, `sp` tells whether that rune is
white space, `cur` is the field collected so far (empty when no field is
open). -/
def fieldsFrom : Nat → Bool → List Nat → List Nat → List (List Nat)
  | _, _, cur, [] => if cur = [] then [] else [cur]
  | 0, _, cur, b :: bs =>
    let rs := if 0x80 ≤ b then decodeRune (b :: bs) else (b, 1)
    if isSpace rs.1 then
      if cur = [] then fieldsFrom (rs.2 - 1) true [] bs
      else cur :: fieldsFrom (rs.2 - 1) true [] bs
    else fieldsFrom (rs.2 - 1) false (cur ++ [b]) bs
  | skip + 1, sp, cur, b :: bs =>
    if sp then fieldsFrom skip true cur bs
    else fieldsFrom skip false (cur ++ [b]) bs

/-- The Go function `bytes.Fields(s)`: the maximal runs of non-white-space
runes of `s`. -/
def fields (s : List Nat) : List (List Nat) := fieldsFrom 0 false [] s

/-- The Go function `bytes.Join(s, sep)`. -/
def join (s : List (List Nat)) (sep : List Nat) : List Nat := sep.intercalate s

/-- The replacement loop of `Replace` for a non-empty `old`: `skip` counts the
bytes of a matched occurrence still to be dropped. -/
def replaceFrom (old new : List Nat) : Nat → List Nat → List Nat
  | _, [] => []
  | 0, c :: cs =>
    if old.isPrefixOf (c :: cs) then new ++ replaceFrom old new (old.length - 1) cs
    else c :: replaceFrom old new 0 cs
  | skip + 1, _ :: cs => replaceFrom old new skip cs

/-- The replacement loop of `Replace` for an empty `old`: `new` is inserted
after every UTF-8 sequence; `skip` counts the bytes of the current sequence
still to be copied. -/
def insertFrom (new : List Nat) : Nat → List Nat → List Nat
  | _, [] => []
  | 0, c :: cs =>
    c :: ((if (decodeRune (c :: cs)).2 - 1 = 0 then new else []) ++
      insertFrom new ((decodeRune (c :: cs)).2 - 1) cs)
  | skip + 1, c :: cs =>
    c :: ((if skip = 0 then new else []) ++ insertFrom new skip cs)

/-- The Go functions `bytes.Replace(s, old, new, -1)` and
`strings.Replace(s, old, new, -1)`: every non-overlapping occurrence of `old`,
found left to right, is replaced by `new`; an empty `old` matches at the start
and after every UTF-8 sequence. -/
def replace (s old new : List Nat) : List Nat :=
  if old = [] then new ++ insertFrom new 0 s else replaceFrom old new 0 s

/-- Removes every leading occurrence of the byte `c`. -/
def trimLeftByte (c : Nat) : List Nat → List Nat
  | [] => []
  | b :: bs => if b = c then trimLeftByte c bs else b :: bs

/-- Removes every trailing occurrence of the byte `c`. -/
def trimRightByte (c : Nat) (s : List Nat) : List Nat :=
  (trimLeftByte c s.reverse).reverse

/-- The Go call `strings.Trim(s, "\"")`: all leading and trailing double
quotes are removed. -/
def trimQuotes (s : List Nat) : List Nat :=
  trimLeftByte quote (trimRightByte quote s)

/-! ## The preprocessor -/

/-- The macro table `defines map[string]string`: distinct keys, one value each. -/
abbrev Defines := List (List Nat × List Nat)

/-- The map read `defines[k]`. -/
def lookup (k : List Nat) : Defines → Option (List Nat)
  | [] => none
  | kv :: m => if kv.1 = k then some kv.2 else lookup k m

/-- The map write `defines[k] = v`: overwrites the value of an existing key,
adds the key otherwise. -/
def setDefine (k v : List Nat) : Defines → Defines
  | [] => [(k, v)]
  | kv :: m => if kv.1 = k then (k, v) :: m else kv :: setDefine k v m

/-- The order in which one `for k, v := range p.defines` loop visits the
table.  Go leaves it unspecified and lets it differ from one loop to the next:
`pick n m` is the order of the `n`-th loop of a run over the table `m`, some
rearrangement of the entries of `m`. -/
structure RangeOrder where
  pick : Nat → Defines → Defines
  perm : ∀ n m, (pick n m).Perm m

/-- The order that visits the entries as they are stored. -/
def storedOrder : RangeOrder := ⟨fun _ m => m, fun _ _ => List.Perm.refl _⟩

/-- The order that visits the entries last to first. -/
def reverseOrder : RangeOrder := ⟨fun _ m => m.reverse, fun _ m => List.reverse_perm m⟩

/-- The body of the three `range p.defines` loops: each visited macro is
applied in turn as a replace-all over the text. -/
def applyDefines (entries : Defines) (text : List Nat) : List Nat :=
  entries.foldl (fun acc kv => replace acc kv.1 kv.2) text

/-- A `Define` hook: `(outName, outValue, err)` for a name and a value; `err`
is the message of the returned error, `none` for `nil`. -/
abbrev DefineFn := List Nat → List Nat → List Nat × List Nat × Option String

/-- An `Include` hook: `(src, err)` for a file name. -/
abbrev IncludeFn := List Nat → List Nat × Option String

/-- The default `defineNoChanges`. -/
def defineNoChanges : DefineFn := fun name value => (name, value, none)

/-- The type `Preprocessor`: the two optional hooks, the unread input of the
scanner `s`, and the macro table. -/
structure Preprocessor where
  Define : Option DefineFn
  Include : Option IncludeFn
  s : List Nat
  defines : Defines

/-- The constructor `New(r)`, for a reader `r` that delivers the given bytes. -/
def New (r : List Nat) : Preprocessor := ⟨none, none, r, []⟩

/-- The errors `Process` returns. -/
inductive PError where
  | invalidDefine (line : List Nat)
  | defineHook (outName outValue : List Nat) (err : String)
  | invalidInclude (line : List Nat)
  | includeHook (name : List Nat) (err : String)
  | scan (err : ScanError)
  deriving DecidableEq, Repr

/-- One call of a hook function, with its arguments. -/
inductive Call where
  | define (name value : List Nat)
  | include (name : List Nat)
  deriving DecidableEq, Repr

/-- The variables of the loop of `Process`: the macro table, the output `src`
built so far, the number of `range` loops already run, and (as a record of the
run, not read by the program) the calls of the hook functions made so far. -/
structure LoopState where
  defines : Defines
  src : List Nat
  ranges : Nat
  calls : List Call
  deriving DecidableEq, Repr

/-- The two results `([]byte, error)` of `Process`; a `nil` slice is `[]`. -/
structure Result where
  out : List Nat
  err : Option PError
  deriving DecidableEq, Repr

/-- The function `define` called at a `#define` line: the hook, or
`defineNoChanges` when the hook is nil. -/
def defineFn (p : Preprocessor) : DefineFn :=
  match p.Define with
  | some h => h
  | none => defineNoChanges

/-- The function `include` called at an `#include` line: the hook, or
`ioutil.ReadFile` (here `readFile`, the file system) when the hook is nil. -/
def includeFn (readFile : IncludeFn) (p : Preprocessor) : IncludeFn :=
  match p.Include with
  | some h => h
  | none => readFile

/-- The `#define` case of the switch in `Process`. -/
def stepDefine (ord : RangeOrder) (p : Preprocessor) (st : LoopState) (b : List Nat) :
    Except PError LoopState :=
  match fields b with
  | _ :: name :: v :: vs =>
    let value := applyDefines (ord.pick st.ranges st.defines) (join (v :: vs) [32])
    match defineFn p name value with
    | (outName, outValue, some err) => .error (.defineHook outName outValue err)
    | (outName, outValue, none) =>
      .ok ⟨setDefine outName outValue st.defines, st.src, st.ranges + 1,
        st.calls ++ [.define name value]⟩
  | _ => .error (.invalidDefine b)

/-- The `#include` case of the switch in `Process`. -/
def stepInclude (ord : RangeOrder) (readFile : IncludeFn) (p : Preprocessor)
    (st : LoopState) (b : List Nat) : Except PError LoopState :=
  match fields b with
  | [_, f1] =>
    match includeFn readFile p (trimQuotes f1) with
    | (_, some err) => .error (.includeHook (trimQuotes f1) err)
    | (inc, none) =>
      .ok ⟨st.defines, st.src ++ applyDefines (ord.pick st.ranges st.defines) inc,
        st.ranges + 1, st.calls ++ [.include (trimQuotes f1)]⟩
  | _ => .error (.invalidInclude b)

/-- The default case of the switch in `Process`: a plain line. -/
def stepPlain (ord : RangeOrder) (st : LoopState) (b : List Nat) : LoopState :=
  ⟨st.defines, st.src ++ (applyDefines (ord.pick st.ranges st.defines) b ++ [nl]),
    st.ranges + 1, st.calls⟩

/-- One iteration of the loop of `Process`, for the scanned line `b`. -/
def step (ord : RangeOrder) (readFile : IncludeFn) (p : Preprocessor)
    (st : LoopState) (b : List Nat) : Except PError LoopState :=
  if hasPrefix b bufDefine then stepDefine ord p st b
  else if hasPrefix b bufInclude then stepInclude ord readFile p st b
  else .ok (stepPlain ord st b)

/-- The loop `for p.s.Scan() { ... }` over the lines the scanner delivers; an
error returned inside the loop ends it. -/
def run (ord : RangeOrder) (readFile : IncludeFn) (p : Preprocessor) :
    LoopState → List (List Nat) → Except PError LoopState
  | st, [] => .ok st
  | st, b :: bs =>
    match step ord readFile p st b with
    | .error e => .error e
    | .ok st1 => run ord readFile p st1 bs

/-- The state in which the loop of `Process` starts. -/
def initState (p : Preprocessor) : LoopState := ⟨p.defines, [], 0, []⟩

/-- The method `Preprocessor.Process`: the loop over the scanned lines, then
the check of `p.s.Err()`.  Every error is returned with a `nil` output. -/
def Process (ord : RangeOrder) (readFile : IncludeFn) (p : Preprocessor) : Result :=
  match run ord readFile p (initState p) (scanLines p.s).1 with
  | .error e => ⟨[], some e⟩
  | .ok st =>
    match (scanLines p.s).2 with
    | some e => ⟨[], some (.scan e)⟩
    | none => ⟨st.src, none⟩

/-- A file system without files: `ioutil.ReadFile` fails for every name. -/
def noFiles : IncludeFn := fun _ => ([], some "file does not exist")

/-- The Go assignment `p.Define = h`. -/
def withDefine (p : Preprocessor) (h : DefineFn) : Preprocessor :=
  ⟨some h, p.Include, p.s, p.defines⟩

/-- The Go assignment `p.Include = h`. -/
def withInclude (p : Preprocessor) (h : IncludeFn) : Preprocessor :=
  ⟨p.Define, some h, p.s, p.defines⟩

/-- The preprocessor with the hooks and the table of `p`, created on the
input `r`. -/
def withInput (p : Preprocessor) (r : List Nat) : Preprocessor :=
  ⟨p.Define, p.Include, r, p.defines⟩

/-- An Include hook that returns an empty file for every name and never fails. -/
def emptyInclude : IncludeFn := fun _ => ([], none)

/-- The Include hook of `TestInclude`: the files of a map from names to
contents; a name that is not in the map gives `os.ErrNotExist`. -/
def mapInclude (files : Defines) : IncludeFn := fun name =>
  match lookup name files with
  | some c => (c, none)
  | none => ([], some "file does not exist")

/-- A Define hook that rejects every definition. -/
def rejectDefine : DefineFn := fun name value => (name, value, some "rejected")

/-- A Define hook that registers every macro under its name preceded by `P4_`. -/
def renameDefine : DefineFn := fun name value => ([80, 52, 95] ++ name, value, none)

/-- The file system of `TestIncludeLargeFile`, read as `ioutil.ReadFile` reads
a file: every name holds the same file, and the whole of it is returned. -/
def memoryFilesystem (file : List Nat) : IncludeFn := fun _ => (file, none)

/-! ## Vocabulary of the statements -/

/-- The value handed to the define function at a `#define` line whose value
fields are `fs`, in the state `st`: the fields joined by single spaces, with
the macros of the table applied. -/
def defineValue (ord : RangeOrder) (st : LoopState) (fs : List (List Nat)) : List Nat :=
  applyDefines (ord.pick st.ranges st.defines) (join fs [32])

/-- No occurrence of `k` can begin inside `u`, whatever follows `u`: no
non-empty suffix of `u` starts with `k` or is the start of `k`. -/
def clearOf (u k : List Nat) : Bool :=
  u.tails.all (fun s => s.isEmpty || (!k.isPrefixOf s && !s.isPrefixOf k))

/-- The texts `a` and `b` do not overlap: neither occurs in the other and no
non-empty end of one is a start of the other. -/
def noOverlap (a b : List Nat) : Bool := clearOf a b && clearOf b a

/-- A table in which the name of a macro overlaps neither the name nor the
value of another macro. -/
def overlapFree (m : Defines) : Prop :=
  ∀ x ∈ m, ∀ y ∈ m, x ≠ y → noOverlap x.1 y.1 = true ∧ noOverlap x.2 y.1 = true

instance (m : Defines) : Decidable (overlapFree m) := by
  unfold overlapFree; infer_instance

/-- The ASCII white-space bytes: tab, newline, vertical tab, form feed,
carriage return and space. -/
def asciiSpace (b : Nat) : Bool := (9 ≤ b ∧ b ≤ 13) ∨ b = 32

/-- The rune at the start of a text and its width, as the loop of
`bytes.FieldsFunc` reads it: a byte below 128 stands for itself. -/
def runeAt : List Nat → Nat × Nat
  | [] => (runeError, 0)
  | b :: bs => if 0x80 ≤ b then decodeRune (b :: bs) else (b, 1)

/-- The text `cur`, read rune by rune with the text `s` behind it, consists of
whole runes none of which is white space. -/
inductive Cover (s : List Nat) : List Nat → Prop where
  | nil : Cover s []
  | rune (cur : List Nat) (r k : Nat) : cur ≠ [] → runeAt (cur ++ s) = (r, k) →
      isSpace r = false → 1 ≤ k → k ≤ cur.length → Cover s (cur.drop k) → Cover s cur

/-- A macro name as the invariant of the table has it: not empty, no
white-space byte. -/
def goodName (k : List Nat) : Prop := k ≠ [] ∧ ∀ b ∈ k, asciiSpace b = false

/-- A macro value as the invariant of the table has it: not empty, no newline,
no space at its start or at its end. -/
def goodValue (v : List Nat) : Prop :=
  v ≠ [] ∧ nl ∉ v ∧ v.head? ≠ some 32 ∧ v.getLast? ≠ some 32

/-- The invariant of the macro table. -/
def goodTable (m : Defines) : Prop := ∀ kv ∈ m, goodName kv.1 ∧ goodValue kv.2

/-- The invariant of the macro table with the names read as UTF-8 as well:
`bytes.Fields` finds every name to be one field, so no name holds a white-space
rune. -/
def tableInvariant (m : Defines) : Prop :=
  ∀ kv ∈ m,
    (kv.1 ≠ [] ∧ (∀ b ∈ kv.1, asciiSpace b = false) ∧ fields kv.1 = [kv.1]) ∧
    (kv.2 ≠ [] ∧ nl ∉ kv.2 ∧ kv.2.head? ≠ some 32 ∧ kv.2.getLast? ≠ some 32)

/-- An ASCII word: not empty, every byte below 128 and not white space. -/
def isWord (w : List Nat) : Prop := w ≠ [] ∧ ∀ b ∈ w, b < 0x80 ∧ isSpace b = false

/-- An ASCII gap: not empty, every byte an ASCII white-space byte (space, tab,
newline, vertical tab, form feed, carriage return). -/
def isGap (g : List Nat) : Prop := g ≠ [] ∧ ∀ b ∈ g, b < 0x80 ∧ isSpace b = true

instance (w : List Nat) : Decidable (isWord w) := by
  unfold isWord; infer_instance

instance (g : List Nat) : Decidable (isGap g) := by
  unfold isGap; infer_instance

/-- The word `w`, then each gap followed by its word. -/
def spaced : List Nat → List (List Nat × List Nat) → List Nat
  | w, [] => w
  | w, gw :: rest => w ++ (gw.1 ++ spaced gw.2 rest)

/-- The state `st` with the bytes `pre` in front of its output. -/
def addSrc (pre : List Nat) (st : LoopState) : LoopState :=
  ⟨st.defines, pre ++ st.src, st.ranges, st.calls⟩

/-- Each line followed by one newline byte, concatenated. -/
def unlines : List (List Nat) → List Nat
  | [] => []
  | l :: ls => l ++ nl :: unlines ls

/-- A plain line: it begins with neither `#define` nor `#include`. -/
def isPlain (l : List Nat) : Prop :=
  hasPrefix l bufDefine = false ∧ hasPrefix l bufInclude = false

instance (l : List Nat) : Decidable (isPlain l) := by
  unfold isPlain; infer_instance

/-- A malformed directive: a `#define` line with fewer than 3 fields, or an
`#include` line that does not have exactly 2 fields. -/
def isMalformed (l : List Nat) : Prop :=
  (hasPrefix l bufDefine = true ∧ (fields l).length < 3) ∨
  (hasPrefix l bufInclude = true ∧ (fields l).length ≠ 2)

instance (l : List Nat) : Decidable (isMalformed l) := by
  unfold isMalformed; infer_instance

/-! ## Basic facts -/

theorem pick_nil (ord : RangeOrder) (n : Nat) : ord.pick n [] = [] :=
  (ord.perm n []).eq_nil

theorem pick_small (ord : RangeOrder) (n : Nat) (m : Defines) (h : m.length ≤ 1) :
    ord.pick n m = m := by
  match m, h with
  | [], _ => exact pick_nil ord n
  | [kv], _ => exact List.perm_singleton.mp (ord.perm n [kv])

theorem step_plain (ord : RangeOrder) (rf : IncludeFn) (p : Preprocessor) (st : LoopState)
    (b : List Nat) (h : isPlain b) : step ord rf p st b = .ok (stepPlain ord st b) := by
  simp [step, h.1, h.2]

theorem run_append (ord : RangeOrder) (rf : IncludeFn) (p : Preprocessor) (xs ys : List (List Nat)) :
    ∀ st, run ord rf p st (xs ++ ys) =
      match run ord rf p st xs with
      | .error e => .error e
      | .ok st1 => run ord rf p st1 ys := by
  induction xs with
  | nil => intro st; simp [run]
  | cons x xs ih =>
    intro st
    simp only [List.cons_append, run]
    cases step ord rf p st x with
    | error e => rfl
    | ok st1 => exact ih st1

theorem unlines_append (xs ys : List (List Nat)) :
    unlines (xs ++ ys) = unlines xs ++ unlines ys := by
  induction xs with
  | nil => rfl
  | cons x xs ih => simp [unlines, ih]

/-- Plain lines processed with a table of at most one macro: the table is
applied to each line, whatever the range order. -/
theorem run_plain_small (ord : RangeOrder) (rf : IncludeFn) (p : Preprocessor)
    (ls : List (List Nat)) (hp : ∀ l ∈ ls, isPlain l) :
    ∀ st, st.defines.length ≤ 1 →
      run ord rf p st ls =
        .ok ⟨st.defines, st.src ++ unlines (ls.map (applyDefines st.defines)),
          st.ranges + ls.length, st.calls⟩ := by
  induction ls with
  | nil => intro st _; simp [run, unlines]
  | cons l ls ih =>
    intro st hst
    have hl : isPlain l := hp l (List.mem_cons_self _ _)
    have hls : ∀ x ∈ ls, isPlain x := fun x hx => hp x (List.mem_cons_of_mem _ hx)
    simp only [run, step_plain ord rf p st l hl]
    rw [ih hls (stepPlain ord st l) (by simpa [stepPlain] using hst)]
    simp [stepPlain, pick_small ord _ _ hst, unlines, Nat.add_comm, Nat.add_left_comm]

theorem applyDefines_nil (t : List Nat) : applyDefines [] t = t := rfl

theorem map_applyDefines_nil (ls : List (List Nat)) : ls.map (applyDefines []) = ls := by
  induction ls with
  | nil => rfl
  | cons l ls ih => simp [applyDefines_nil, ih]

/-! ## The scanner on newline-terminated input -/

theorem dropCR_of_ne (cur : List Nat) (h : cur.getLast? ≠ some cr) : dropCR cur = cur := by
  simp [dropCR, h]

theorem crnl_of_getLast?_cr (cur rest : List Nat) (h : cur.getLast? = some cr) :
    [cr, nl] <:+: cur ++ nl :: rest := by
  obtain ⟨init, rfl⟩ := List.getLast?_eq_some_iff.mp h
  exact ⟨init, rest, by simp⟩

/-- On input whose every line ends with a newline and has no carriage return
before it, the lines the scanner delivers, each followed by a newline, are the
input. -/
theorem scanFrom_unlines (inp : List Nat) :
    ∀ cur ls, scanFrom cur inp = (ls, none) → nl ∉ cur →
      (cur ++ inp = [] ∨ (cur ++ inp).getLast? = some nl) →
      ¬ [cr, nl] <:+: cur ++ inp → unlines ls = cur ++ inp := by
  induction inp with
  | nil =>
    intro cur ls hs hnl hend _
    by_cases hc : cur = []
    · subst hc
      simp [scanFrom] at hs
      simp [hs, unlines]
    · exfalso
      rcases hend with h | h
      · exact hc (by simpa using h)
      · rw [List.append_nil] at h
        exact hnl (List.mem_of_getLast?_eq_some h)
  | cons b rest ih =>
    intro cur ls hs hnl hend hcr
    unfold scanFrom at hs
    by_cases hlen : maxScanTokenSize ≤ cur.length
    · simp [hlen] at hs
    · simp only [hlen, if_false] at hs
      by_cases hb : b = nl
      · subst hb
        simp only [if_true] at hs
        obtain ⟨ls1, e1⟩ : ∃ ls1, scanFrom [] rest = (ls1, none) := by
          refine ⟨(scanFrom [] rest).1, ?_⟩
          have := congrArg Prod.snd hs
          exact Prod.ext rfl (by simpa using this)
        have hls : ls = dropCR cur :: ls1 := by
          have := congrArg Prod.fst hs
          simp [e1] at this
          exact this.symm
        have hcur : cur.getLast? ≠ some cr := fun h => hcr (crnl_of_getLast?_cr cur rest h)
        have hrest : unlines ls1 = [] ++ rest := by
          apply ih [] ls1 e1 (by simp)
          · by_cases hr : rest = []
            · left; simp [hr]
            · right
              rcases hend with h | h
              · simp at h
              · rw [List.nil_append]
                rw [show cur ++ nl :: rest = (cur ++ [nl]) ++ rest by simp,
                  List.getLast?_append_of_ne_nil _ hr] at h
                exact h
          · intro hin
            apply hcr
            rw [List.nil_append] at hin
            exact hin.trans ⟨cur ++ [nl], [], by simp⟩
        rw [hls, dropCR_of_ne cur hcur]
        simp [unlines, hrest]
      · simp only [hb, if_false] at hs
        have := ih (cur ++ [b]) ls hs (by simp [hnl, Ne.symm hb])
          (by simpa using hend) (by simpa using hcr)
        simpa using this

/-- Plain lines processed with an empty table are copied, each followed by a
newline. -/
theorem run_plain_empty (ord : RangeOrder) (rf : IncludeFn) (p : Preprocessor)
    (ls : List (List Nat)) (hp : ∀ l ∈ ls, isPlain l) (src : List Nat) (n : Nat)
    (calls : List Call) :
    run ord rf p ⟨[], src, n, calls⟩ ls = .ok ⟨[], src ++ unlines ls, n + ls.length, calls⟩ := by
  have := run_plain_small ord rf p ls hp ⟨[], src, n, calls⟩ (by simp)
  simpa [map_applyDefines_nil] using this

/-- Input of newline-terminated plain lines is returned as it is. -/
theorem process_identity_core (ord : RangeOrder) (rf : IncludeFn) (p : Preprocessor)
    (hd : p.defines = [])
    (hend : p.s = [] ∨ p.s.getLast? = some nl)
    (hcr : ¬ [cr, nl] <:+: p.s)
    (hscan : (scanLines p.s).2 = none)
    (hplain : ∀ l ∈ (scanLines p.s).1, isPlain l) :
    Process ord rf p = ⟨p.s, none⟩ := by
  have hs : scanFrom [] p.s = ((scanLines p.s).1, none) := Prod.ext rfl hscan
  have hu : unlines (scanLines p.s).1 = [] ++ p.s :=
    scanFrom_unlines p.s [] _ hs (by simp) (by simpa using hend) (by simpa using hcr)
  simp only [Process, initState, hd, run_plain_empty ord rf p _ hplain, hscan]
  simp [hu]

/-! ## C1: identity on input without directives -/

/-- C1 (as stated, refuted): the input `a`, one line without a final newline
and without any directive, is not returned unchanged: the output is `a`
followed by a newline. -/
theorem identity_counterexample :
    (∀ l ∈ (scanLines (ascii "a")).1, isPlain l) ∧
    Process storedOrder noFiles (New (ascii "a")) = ⟨ascii "a\n", none⟩ ∧
    Process storedOrder noFiles (New (ascii "a")) ≠ ⟨ascii "a", none⟩ := by
  decide

/-- C1 (amended): for every input byte stream that is empty or ends with a
newline, has no carriage return directly before a newline, has no line of
`maxScanTokenSize` bytes or more, and in which no line begins with `#define`
or `#include`, `New(input).Process()` succeeds and returns exactly the input
bytes. -/
theorem identity_on_terminated_lines (ord : RangeOrder) (readFile : IncludeFn)
    (input : List Nat)
    (hend : input = [] ∨ input.getLast? = some nl)
    (hcr : ¬ [cr, nl] <:+: input)
    (hscan : (scanLines input).2 = none)
    (hplain : ∀ l ∈ (scanLines input).1, isPlain l) :
    Process ord readFile (New input) = ⟨input, none⟩ :=
  process_identity_core ord readFile (New input) rfl hend hcr hscan hplain

/-- Witness for C1 (amended), on the input of `TestNoProcessing`. -/
theorem identity_on_terminated_lines_witness :
    Process storedOrder noFiles
        (New (ascii "\nheader_type foo_t \x7b\n\tfields \x7b\n\t\tfoo : 8;\n\t\x7d\n\x7d\n")) =
      ⟨ascii "\nheader_type foo_t \x7b\n\tfields \x7b\n\t\tfoo : 8;\n\t\x7d\n\x7d\n", none⟩ :=
  identity_on_terminated_lines storedOrder noFiles _ (by decide) (by decide) (by decide)
    (by decide)

/-! ## C2: scope of a define -/

theorem step_define (ord : RangeOrder) (rf : IncludeFn) (p : Preprocessor) (st : LoopState)
    (d f0 name v : List Nat) (vs : List (List Nat)) (outName outValue : List Nat)
    (hd : hasPrefix d bufDefine = true) (hf : fields d = f0 :: name :: v :: vs)
    (hh : defineFn p name (applyDefines (ord.pick st.ranges st.defines) (join (v :: vs) [32])) =
      (outName, outValue, none)) :
    step ord rf p st d =
      .ok ⟨setDefine outName outValue st.defines, st.src, st.ranges + 1,
        st.calls ++ [.define name
          (applyDefines (ord.pick st.ranges st.defines) (join (v :: vs) [32]))]⟩ := by
  simp [step, hd, stepDefine, hf, hh]

theorem step_define_default (ord : RangeOrder) (rf : IncludeFn) (p : Preprocessor)
    (st : LoopState) (d f0 name v : List Nat) (vs : List (List Nat)) (hdef : p.Define = none)
    (hd : hasPrefix d bufDefine = true) (hf : fields d = f0 :: name :: v :: vs) :
    step ord rf p st d =
      .ok ⟨setDefine name (applyDefines (ord.pick st.ranges st.defines) (join (v :: vs) [32]))
          st.defines, st.src, st.ranges + 1,
        st.calls ++ [.define name
          (applyDefines (ord.pick st.ranges st.defines) (join (v :: vs) [32]))]⟩ :=
  step_define ord rf p st d f0 name v vs _ _ hd hf (by simp [defineFn, hdef, defineNoChanges])

theorem applyDefines_single (k v t : List Nat) : applyDefines [(k, v)] t = replace t k v := rfl

/-- Lines `P`, one define line, lines `Q`, with the default hooks and an
empty table at the start: the output and the final table. -/
theorem run_define_scope (ord : RangeOrder) (rf : IncludeFn) (p : Preprocessor)
    (hdef : p.Define = none) (P Q : List (List Nat)) (d f0 name v : List Nat)
    (vs : List (List Nat)) (hP : ∀ l ∈ P, isPlain l) (hQ : ∀ l ∈ Q, isPlain l)
    (hd : hasPrefix d bufDefine = true) (hf : fields d = f0 :: name :: v :: vs)
    (src : List Nat) (n : Nat) (calls : List Call) :
    run ord rf p ⟨[], src, n, calls⟩ (P ++ d :: Q) =
      .ok ⟨[(name, join (v :: vs) [32])],
        src ++ unlines P ++ unlines (Q.map (fun l => replace l name (join (v :: vs) [32]))),
        n + P.length + 1 + Q.length, calls ++ [.define name (join (v :: vs) [32])]⟩ := by
  rw [run_append, run_plain_empty ord rf p P hP]
  simp only [run]
  rw [step_define ord rf p _ d f0 name v vs name (join (v :: vs) [32]) hd hf
    (by simp [defineFn, hdef, defineNoChanges, pick_nil, applyDefines_nil])]
  simp only [pick_nil, applyDefines_nil, setDefine]
  rw [run_plain_small ord rf p Q hQ _ (by simp)]
  rfl

/-- The result of `Process` on plain lines, one define line, plain lines. -/
theorem define_scope_aux (ord : RangeOrder) (readFile : IncludeFn) (input : List Nat)
    (P Q : List (List Nat)) (d f0 name v : List Nat) (vs : List (List Nat))
    (hscan : scanLines input = (P ++ d :: Q, none))
    (hP : ∀ l ∈ P, isPlain l) (hQ : ∀ l ∈ Q, isPlain l)
    (hd : hasPrefix d bufDefine = true) (hf : fields d = f0 :: name :: v :: vs) :
    Process ord readFile (New input) =
      ⟨unlines P ++ unlines (Q.map (fun l => replace l name (join (v :: vs) [32]))), none⟩ := by
  simp only [Process, initState, New, hscan]
  rw [run_define_scope ord readFile _ rfl P Q d f0 name v vs hP hQ hd hf]
  simp

/-- C2: for every input that the scanner splits into plain lines `P`, one line
beginning with `#define` whose fields are the directive, `NAME` and at least one
value field (`VALUE` is the value fields joined by single spaces), and plain
lines `Q`, with the default hooks, `Process` succeeds and returns each line of
`P` followed by a newline, then each line of `Q` with every occurrence of
`NAME` replaced by `VALUE` followed by a newline. -/
theorem define_scope (ord : RangeOrder) (readFile : IncludeFn) (input : List Nat)
    (P Q : List (List Nat)) (d f0 NAME v : List Nat) (vs : List (List Nat))
    (hscan : scanLines input = (P ++ d :: Q, none))
    (hP : ∀ l ∈ P, isPlain l) (hQ : ∀ l ∈ Q, isPlain l)
    (hd : hasPrefix d bufDefine = true) (hf : fields d = f0 :: NAME :: v :: vs) :
    Process ord readFile (New input) =
      ⟨unlines P ++ unlines (Q.map (fun l => replace l NAME (join (v :: vs) [32]))), none⟩ :=
  define_scope_aux ord readFile input P Q d f0 NAME v vs hscan hP hQ hd hf

/-- Witness for C2, on the input of the test "one define" preceded by a line
that contains the macro name. -/
theorem define_scope_witness :
    Process storedOrder noFiles
        (New (ascii "FOO_BITS\n#define FOO_BITS 8\n\tfoo : FOO_BITS;\n\x7d\n")) =
      ⟨ascii "FOO_BITS\n\tfoo : 8;\n\x7d\n", none⟩ :=
  define_scope storedOrder noFiles _ [ascii "FOO_BITS"] [ascii "\tfoo : FOO_BITS;", ascii "\x7d"]
    (ascii "#define FOO_BITS 8") (ascii "#define") (ascii "FOO_BITS") (ascii "8") []
    (by decide) (by decide) (by decide) (by decide) (by decide)

/-! ## C3: redefinition -/

theorem replaceFrom_absent (old new : List Nat) :
    ∀ s : List Nat, ¬ old <:+: s → replaceFrom old new 0 s = s := by
  intro s
  induction s with
  | nil => intro _; rfl
  | cons c cs ih =>
    intro h
    have hpre : old.isPrefixOf (c :: cs) = false := by
      cases hb : old.isPrefixOf (c :: cs) with
      | false => rfl
      | true => exact absurd ( List.isPrefixOf_iff_prefix.mp hb).isInfix h
    have htail : ¬ old <:+: cs := fun hin => h (hin.trans (List.suffix_cons c cs).isInfix)
    simp [replaceFrom, hpre, ih htail]

/-- A text in which `old` does not occur is left unchanged by `replace`. -/
theorem replace_absent (s old new : List Nat) (h : ¬ old <:+: s) :
    replace s old new = s := by
  have hne : old ≠ [] := by
    rintro rfl
    exact h List.nil_infix
  simp [replace, hne, replaceFrom_absent old new s h]

/-- Two define lines for the same name, then plain lines, from an empty table,
when the name does not occur in the second value. -/
theorem run_redefine (ord : RangeOrder) (rf : IncludeFn) (p : Preprocessor)
    (hdef : p.Define = none) (Q : List (List Nat)) (d1 d2 f1 f2 name v1 v2 : List Nat)
    (vs1 vs2 : List (List Nat)) (hQ : ∀ l ∈ Q, isPlain l)
    (hd1 : hasPrefix d1 bufDefine = true) (hf1 : fields d1 = f1 :: name :: v1 :: vs1)
    (hd2 : hasPrefix d2 bufDefine = true) (hf2 : fields d2 = f2 :: name :: v2 :: vs2)
    (hfree : ¬ name <:+: join (v2 :: vs2) [32]) :
    ∃ st, run ord rf p ⟨[], [], 0, []⟩ (d1 :: d2 :: Q) = .ok st ∧
      st.defines = [(name, join (v2 :: vs2) [32])] ∧
      st.src = unlines (Q.map (fun l => replace l name (join (v2 :: vs2) [32]))) := by
  simp only [run]
  rw [step_define ord rf p _ d1 f1 name v1 vs1 name (join (v1 :: vs1) [32]) hd1 hf1
    (by simp [defineFn, hdef, defineNoChanges, pick_nil, applyDefines_nil])]
  simp only [pick_nil, applyDefines_nil, setDefine]
  rw [step_define ord rf p _ d2 f2 name v2 vs2 name (join (v2 :: vs2) [32]) hd2 hf2
    (by simp [defineFn, hdef, defineNoChanges, pick_small, applyDefines_single,
      replace_absent _ _ _ hfree])]
  simp only [setDefine, if_true]
  rw [run_plain_small ord rf p Q hQ _ (by simp)]
  exact ⟨_, rfl, rfl, by simp; rfl⟩

/-- C3 (as stated, refuted): with `N = A`, `V1 = 1`, `V2 = A2` the two inputs
give different outputs: after `#define A 1` the second define stores `12`, so
the line `A` becomes `12`, while `#define A A2` alone turns it into `A2`. -/
theorem redefinition_counterexample :
    Process storedOrder noFiles (New (ascii "#define A 1\n#define A A2\nA\n")) =
      ⟨ascii "12\n", none⟩ ∧
    Process storedOrder noFiles (New (ascii "#define A A2\nA\n")) = ⟨ascii "A2\n", none⟩ ∧
    Process storedOrder noFiles (New (ascii "#define A 1\n#define A A2\nA\n")) ≠
      Process storedOrder noFiles (New (ascii "#define A A2\nA\n")) := by
  decide

/-- C3 (amended): for every name `N` and values `V1`, `V2` such that `N` does
not occur in `V2`, processing `#define N V1`, then `#define N V2`, then any
plain lines yields the same result as processing only `#define N V2` followed
by the same plain lines: every occurrence of `N` in those lines becomes `V2`. -/
theorem redefinition_last_wins (ord1 ord2 : RangeOrder) (readFile : IncludeFn)
    (in1 in2 : List Nat) (Q : List (List Nat)) (d1 d2 f1 f2 N v1 v2 : List Nat)
    (vs1 vs2 : List (List Nat))
    (hscan1 : scanLines in1 = (d1 :: d2 :: Q, none))
    (hscan2 : scanLines in2 = (d2 :: Q, none))
    (hQ : ∀ l ∈ Q, isPlain l)
    (hd1 : hasPrefix d1 bufDefine = true) (hf1 : fields d1 = f1 :: N :: v1 :: vs1)
    (hd2 : hasPrefix d2 bufDefine = true) (hf2 : fields d2 = f2 :: N :: v2 :: vs2)
    (hfree : ¬ N <:+: join (v2 :: vs2) [32]) :
    Process ord1 readFile (New in1) = Process ord2 readFile (New in2) ∧
    Process ord2 readFile (New in2) =
      ⟨unlines (Q.map (fun l => replace l N (join (v2 :: vs2) [32]))), none⟩ := by
  obtain ⟨st, hrun, _, hsrc⟩ := run_redefine ord1 readFile (New in1) rfl Q d1 d2 f1 f2 N v1 v2
    vs1 vs2 hQ hd1 hf1 hd2 hf2 hfree
  have h2 : Process ord2 readFile (New in2) =
      ⟨unlines (Q.map (fun l => replace l N (join (v2 :: vs2) [32]))), none⟩ := by
    have := define_scope_aux ord2 readFile in2 [] Q d2 f2 N v2 vs2 hscan2 (by simp) hQ hd2 hf2
    simpa [unlines] using this
  refine ⟨?_, h2⟩
  rw [h2]
  simp only [Process, initState, New, hscan1]
  simp only [New] at hrun
  rw [hrun]
  simp [hsrc]

/-- Witness for C3 (amended), on the input of the test "FOO_BITS defined
twice". -/
theorem redefinition_last_wins_witness :
    Process storedOrder noFiles
        (New (ascii "#define FOO_BITS 8\n#define FOO_BITS 16\n\tfoo : FOO_BITS;\n")) =
      Process reverseOrder noFiles (New (ascii "#define FOO_BITS 16\n\tfoo : FOO_BITS;\n")) ∧
    Process reverseOrder noFiles (New (ascii "#define FOO_BITS 16\n\tfoo : FOO_BITS;\n")) =
      ⟨ascii "\tfoo : 16;\n", none⟩ :=
  redefinition_last_wins storedOrder reverseOrder noFiles _ _ [ascii "\tfoo : FOO_BITS;"]
    (ascii "#define FOO_BITS 8") (ascii "#define FOO_BITS 16") (ascii "#define")
    (ascii "#define") (ascii "FOO_BITS") (ascii "8") (ascii "16") [] []
    (by decide) (by decide) (by decide) (by decide) (by decide) (by decide) (by decide)
    (by decide)

/-! ## C4: a define that uses another define -/

theorem lookup_setDefine_self (k v : List Nat) (m : Defines) :
    lookup k (setDefine k v m) = some v := by
  induction m with
  | nil => simp [setDefine, lookup]
  | cons kv m ih =>
    by_cases h : kv.1 = k
    · simp [setDefine, h, lookup]
    · simp [setDefine, h, lookup, ih]

theorem lookup_setDefine_other (k v j : List Nat) (m : Defines) (h : j ≠ k) :
    lookup j (setDefine k v m) = lookup j m := by
  induction m with
  | nil => simp [setDefine, lookup, Ne.symm h]
  | cons kv m ih =>
    by_cases hk : kv.1 = k
    · have hj : ¬ kv.1 = j := fun e => h (e.symm.trans hk)
      simp [setDefine, hk, lookup, hj, Ne.symm h]
    · rw [setDefine, if_neg hk]
      by_cases hj : kv.1 = j
      · simp [lookup, hj]
      · simp [lookup, hj, ih]

/-- A range over a table of two macros visits them in one of the two orders. -/
theorem pick_pair (ord : RangeOrder) (n : Nat) (x y : List Nat × List Nat) :
    ord.pick n [x, y] = [x, y] ∨ ord.pick n [x, y] = [y, x] := by
  have h := ord.perm n [x, y]
  generalize ord.pick n [x, y] = l at h
  match l, h with
  | [a, b], h =>
    have ha : a ∈ [x, y] := h.subset (List.mem_cons_self _ _)
    simp only [List.mem_cons, List.mem_singleton, List.not_mem_nil, or_false] at ha
    rcases ha with rfl | rfl
    · left
      have := List.perm_singleton.mp h.cons_inv
      simp [this]
    · right
      have h2 : [a, b].Perm [a, x] := h.trans (List.Perm.swap a x [])
      have := List.perm_singleton.mp h2.cons_inv
      simp [this]
  | [], h => simp at h
  | [_], h => exact absurd h.length_eq (by simp)
  | _ :: _ :: _ :: _, h => exact absurd h.length_eq (by simp)

/-- Replacing a one-byte name by a one-byte value maps every byte. -/
theorem replace_byte (a b : Nat) (s : List Nat) :
    replace s [a] [b] = s.map (fun c => if c = a then b else c) := by
  have h : ∀ s : List Nat, replaceFrom [a] [b] 0 s = s.map (fun c => if c = a then b else c) := by
    intro s
    induction s with
    | nil => rfl
    | cons c cs ih =>
      by_cases hc : c = a
      · subst hc
        simp [replaceFrom, List.isPrefixOf, ih]
      · have hac : (a == c) = false := by simpa using Ne.symm hc
        simp [replaceFrom, List.isPrefixOf, hac, hc, ih]
  simp [replace, h]

/-- With `A` and `B` both defined as `8`, the two range orders rewrite a line
in the same way. -/
theorem apply_AB (ord : RangeOrder) (n : Nat) (L : List Nat) :
    applyDefines (ord.pick n [([65], [56]), ([66], [56])]) L =
      replace (replace L [65] [56]) [66] [56] := by
  rcases pick_pair ord n ([65], [56]) ([66], [56]) with h | h
  · rw [h]; rfl
  · rw [h]
    show replace (replace L [66] [56]) [65] [56] = replace (replace L [65] [56]) [66] [56]
    simp only [replace_byte, List.map_map]
    apply List.map_congr_left
    intro c _
    simp only [Function.comp]
    split_ifs <;> omega

/-- C4 (counterexample): when the range over the table visits `B` before `A`,
what the line `B` comes out as follows the current value of `A`.  After
`#define A AA` and `#define B A` the value stored for `B` is `AA` and the line
`B` is output as `AAAA`; with `#define A 2` added before that line the value
stored for `B` is still `AA` and the line `B` is output as `22`. -/
theorem chained_define_counterexample :
    Process reverseOrder noFiles (New (ascii "#define A AA\n#define B A\nB\n")) =
      ⟨ascii "AAAA\n", none⟩ ∧
    Process reverseOrder noFiles (New (ascii "#define A AA\n#define B A\n#define A 2\nB\n")) =
      ⟨ascii "22\n", none⟩ ∧
    (∃ st, run reverseOrder noFiles (New []) ⟨[], [], 0, []⟩
        [ascii "#define A AA", ascii "#define B A", ascii "#define A 2"] = .ok st ∧
      lookup (ascii "B") st.defines = some (ascii "AA")) := by
  refine ⟨by decide, by decide, ⟨_, rfl, by decide⟩⟩

/-! ## C5: malformed directives -/

/-- Whenever `Process` returns an error it returns no output. -/
theorem process_error_no_output (ord : RangeOrder) (rf : IncludeFn) (p : Preprocessor)
    (h : (Process ord rf p).err ≠ none) : (Process ord rf p).out = [] := by
  unfold Process at h ⊢
  cases hr : run ord rf p (initState p) (scanLines p.s).1 with
  | error e => rfl
  | ok st =>
    cases hs : (scanLines p.s).2 with
    | some e => rfl
    | none => simp [hr, hs] at h

theorem define_not_include (l : List Nat) (h : hasPrefix l bufDefine = true) :
    hasPrefix l bufInclude = false := by
  match l, h with
  | _ :: b :: _, h =>
    have hb : b = 100 := by
      simp [hasPrefix, bufDefine, List.isPrefixOf] at h
      exact h.2.1.symm
    subst hb
    simp [hasPrefix, bufInclude, List.isPrefixOf]
  | [], h => simp [hasPrefix, bufDefine, List.isPrefixOf] at h
  | [_], h => simp [hasPrefix, bufDefine, List.isPrefixOf] at h

theorem hasPrefix_false_of_ne_true (l q : List Nat) (h : ¬ hasPrefix l q = true) :
    hasPrefix l q = false := by
  simpa using h

/-- With the default Define hook and an Include hook that never fails, one
line is processed without error exactly when it is not a malformed directive. -/
theorem step_ok_iff (ord : RangeOrder) (rf : IncludeFn) (p : Preprocessor) (inc : IncludeFn)
    (hdef : p.Define = none) (hinc : p.Include = some inc) (hok : ∀ n, (inc n).2 = none)
    (st : LoopState) (l : List Nat) :
    (∃ st1, step ord rf p st l = .ok st1) ↔ ¬ isMalformed l := by
  by_cases hd : hasPrefix l bufDefine = true
  · have hi := define_not_include l hd
    simp only [step, hd, if_true, isMalformed, hi, true_and, false_and, or_false,
      Bool.false_eq_true]
    unfold stepDefine
    match hf : fields l with
    | _ :: name :: v :: vs => simp [defineFn, hdef, defineNoChanges]
    | [] => simp
    | [_] => simp
    | [_, _] => simp
  · have hd0 := hasPrefix_false_of_ne_true _ _ hd
    by_cases hi : hasPrefix l bufInclude = true
    · simp only [step, hd0, hi, if_true, isMalformed, true_and, false_and, false_or,
        Bool.false_eq_true, if_false]
      unfold stepInclude
      match hf : fields l with
      | [_, f1] =>
        have h2 := hok (trimQuotes f1)
        cases hr : inc (trimQuotes f1) with
        | mk c e =>
          rw [hr] at h2
          simp only at h2
          subst h2
          simp [includeFn, hinc, hr]
      | [] => simp
      | [_] => simp
      | _ :: _ :: _ :: _ => simp
    · have hi0 := hasPrefix_false_of_ne_true _ _ hi
      simp [step, hd0, hi0, isMalformed]

theorem run_ok_iff (ord : RangeOrder) (rf : IncludeFn) (p : Preprocessor) (inc : IncludeFn)
    (hdef : p.Define = none) (hinc : p.Include = some inc) (hok : ∀ n, (inc n).2 = none)
    (ls : List (List Nat)) :
    ∀ st, (∃ st1, run ord rf p st ls = .ok st1) ↔ ∀ l ∈ ls, ¬ isMalformed l := by
  induction ls with
  | nil => intro st; simp [run]
  | cons l ls ih =>
    intro st
    have hstep := step_ok_iff ord rf p inc hdef hinc hok st l
    simp only [run, List.mem_cons, forall_eq_or_imp]
    cases hs : step ord rf p st l with
    | error e =>
      have : ¬ ¬ isMalformed l := fun hn => by
        obtain ⟨st1, h1⟩ := hstep.mpr hn
        rw [hs] at h1
        cases h1
      simp [this]
    | ok st1 =>
      have : ¬ isMalformed l := hstep.mp ⟨st1, hs⟩
      simp [this, ih st1]

/-- A run of `n` bytes `a` that fills the scanner's buffer: no token, and
`ErrTooLong`. -/
theorem scanFrom_replicate (n : Nat) :
    ∀ cur, maxScanTokenSize ≤ cur.length + n →
      scanFrom cur (List.replicate n 97) = ([], some .tooLong) := by
  induction n with
  | zero =>
    intro cur h
    have hc : cur ≠ [] := by
      rintro rfl
      simp [maxScanTokenSize] at h
    simp only [List.replicate, scanFrom, hc, if_false]
    simp [show maxScanTokenSize ≤ cur.length from h]
  | succ n ih =>
    intro cur h
    simp only [List.replicate, scanFrom]
    by_cases hl : maxScanTokenSize ≤ cur.length
    · simp [hl]
    · simp only [hl, if_false, show (97 : Nat) ≠ nl by decide]
      exact ih (cur ++ [97]) (by simp; omega)

/-- An input of `n` bytes `a` that fills the scanner's buffer makes `Process`
return the scanner's error. -/
theorem process_too_long (ord : RangeOrder) (rf : IncludeFn) (p : Preprocessor) (n : Nat)
    (hn : maxScanTokenSize ≤ n) (hs : p.s = List.replicate n 97) :
    Process ord rf p = ⟨[], some (.scan .tooLong)⟩ := by
  have hscan : scanLines p.s = ([], some .tooLong) := by
    rw [hs]
    exact scanFrom_replicate n [] (by simpa using hn)
  unfold Process
  rw [hscan]
  rfl

/-- C5 (as stated, refuted): an input of 70000 bytes `a` and no newline holds
no `#` at all, so no malformed directive, yet `Process` returns an error: the
scanner stops with `ErrTooLong`, which `Process` returns after its loop. -/
theorem error_iff_malformed_counterexample :
    35 ∉ List.replicate 70000 97 ∧
    (∀ l ∈ (scanLines (List.replicate 70000 97)).1, ¬ isMalformed l) ∧
    Process storedOrder noFiles (withInclude (New (List.replicate 70000 97)) emptyInclude) =
      ⟨[], some (.scan .tooLong)⟩ := by
  have h64 : maxScanTokenSize ≤ 70000 := by
    show 64 * 1024 ≤ 70000
    norm_num
  refine ⟨?_, ?_, process_too_long _ _ _ 70000 h64 rfl⟩
  · intro h
    have := (List.mem_replicate.mp h).2
    omega
  · have hs : scanLines (List.replicate 70000 97) = ([], some .tooLong) :=
      scanFrom_replicate 70000 [] (Nat.le_trans h64 (Nat.le_add_left _ _))
    rw [hs]
    intro l hl
    cases hl

/-- C5 (amended): with the default Define hook and an Include hook that never
fails, `Process` returns an error if and only if some line delivered by the
scanner is a `#define` line with fewer than 3 fields or an `#include` line
that does not have exactly 2 fields, or the scanner itself stops with an error
(a line of `maxScanTokenSize` bytes or more); whenever `Process` returns an
error the returned output is empty. -/
theorem error_iff_malformed_or_scan (ord : RangeOrder) (readFile : IncludeFn)
    (input : List Nat) (inc : IncludeFn) (hok : ∀ n, (inc n).2 = none) :
    ((Process ord readFile (withInclude (New input) inc)).err ≠ none ↔
      ((∃ l ∈ (scanLines input).1, isMalformed l) ∨ (scanLines input).2 ≠ none)) ∧
    ((Process ord readFile (withInclude (New input) inc)).err ≠ none →
      (Process ord readFile (withInclude (New input) inc)).out = []) := by
  refine ⟨?_, process_error_no_output ord readFile _⟩
  have hrun := run_ok_iff ord readFile (withInclude (New input) inc) inc rfl rfl hok
    (scanLines input).1 (initState (withInclude (New input) inc))
  have hsrc : (withInclude (New input) inc).s = input := rfl
  unfold Process
  rw [hsrc]
  cases hr : run ord readFile (withInclude (New input) inc)
      (initState (withInclude (New input) inc)) (scanLines input).1 with
  | error e =>
    have hbad : ¬ ∀ l ∈ (scanLines input).1, ¬ isMalformed l := fun hall => by
      obtain ⟨st1, h1⟩ := hrun.mpr hall
      rw [hr] at h1
      cases h1
    have hex : ∃ l ∈ (scanLines input).1, isMalformed l := by
      by_contra hne
      exact hbad (fun l hl hm => hne ⟨l, hl, hm⟩)
    simp [hex]
  | ok st =>
    have hgood : ∀ l ∈ (scanLines input).1, ¬ isMalformed l := hrun.mp ⟨st, hr⟩
    have hex : ¬ ∃ l ∈ (scanLines input).1, isMalformed l := fun ⟨l, hl, hm⟩ => hgood l hl hm
    cases hs : (scanLines input).2 with
    | some e => simp
    | none => simp [hex]

/-- Witness for C5 (amended), on the lines of the test "no value for define". -/
theorem error_iff_malformed_or_scan_witness :
    (Process storedOrder noFiles
        (withInclude (New (ascii "#define FOO_BITS\nfoo : FOO_BITS;\n")) emptyInclude)).err =
      some (.invalidDefine (ascii "#define FOO_BITS")) ∧
    (Process storedOrder noFiles
        (withInclude (New (ascii "#define FOO_BITS\nfoo : FOO_BITS;\n")) emptyInclude)).out = [] :=
  ⟨by decide,
    (error_iff_malformed_or_scan storedOrder noFiles
      (ascii "#define FOO_BITS\nfoo : FOO_BITS;\n") emptyInclude (fun _ => rfl)).2
      ((error_iff_malformed_or_scan storedOrder noFiles
        (ascii "#define FOO_BITS\nfoo : FOO_BITS;\n") emptyInclude (fun _ => rfl)).1.mpr
        (Or.inl ⟨ascii "#define FOO_BITS", by decide, by decide⟩))⟩

/-! ## C6: errors returned by the hooks -/

/-- An error in the loop is the result of `Process`, with no output. -/
theorem process_of_run_error (ord : RangeOrder) (rf : IncludeFn) (p : Preprocessor)
    (ls : List (List Nat)) (serr : Option ScanError) (e : PError)
    (hscan : scanLines p.s = (ls, serr))
    (hrun : run ord rf p (initState p) ls = .error e) :
    Process ord rf p = ⟨[], some e⟩ := by
  simp only [Process, hscan, hrun]

/-- A loop that ends without error, on input the scanner reads to its end,
gives its output as the result of `Process`. -/
theorem process_of_run_ok (ord : RangeOrder) (rf : IncludeFn) (p : Preprocessor)
    (ls : List (List Nat)) (st : LoopState)
    (hscan : scanLines p.s = (ls, none))
    (hrun : run ord rf p (initState p) ls = .ok st) :
    Process ord rf p = ⟨st.src, none⟩ := by
  simp only [Process, hscan, hrun]

theorem run_error_at (ord : RangeOrder) (rf : IncludeFn) (p : Preprocessor)
    (pre post : List (List Nat)) (d : List Nat) (st0 st : LoopState) (e : PError)
    (hpre : run ord rf p st0 pre = .ok st) (hstep : step ord rf p st d = .error e) :
    run ord rf p st0 (pre ++ d :: post) = .error e := by
  rw [run_append, hpre]
  simp only [run, hstep]

/-- C6: when the lines before a directive have been processed and the Define
hook returns an error on that `#define` line, or the function that resolves
includes (the Include hook, or the file read when there is none) returns an
error on that `#include` line, `Process` returns that error and no output at
all, whatever output the lines before had produced and whatever lines follow. -/
theorem hook_error_fails_fast (ord : RangeOrder) (readFile : IncludeFn) (p : Preprocessor)
    (pre post : List (List Nat)) (d : List Nat) (serr : Option ScanError) (st : LoopState)
    (hscan : scanLines p.s = (pre ++ d :: post, serr))
    (hpre : run ord readFile p (initState p) pre = .ok st) :
    (∀ h f0 name v vs outName outValue e, p.Define = some h →
      hasPrefix d bufDefine = true → fields d = f0 :: name :: v :: vs →
      h name (applyDefines (ord.pick st.ranges st.defines) (join (v :: vs) [32])) =
        (outName, outValue, some e) →
      Process ord readFile p = ⟨[], some (.defineHook outName outValue e)⟩) ∧
    (∀ f0 f1 c e, hasPrefix d bufDefine = false → hasPrefix d bufInclude = true →
      fields d = [f0, f1] → includeFn readFile p (trimQuotes f1) = (c, some e) →
      Process ord readFile p = ⟨[], some (.includeHook (trimQuotes f1) e)⟩) := by
  constructor
  · intro h f0 name v vs outName outValue e hh hd hf herr
    apply process_of_run_error ord readFile p _ serr _ hscan
    apply run_error_at ord readFile p pre post d _ st _ hpre
    simp [step, hd, stepDefine, hf, defineFn, hh, herr]
  · intro f0 f1 c e hd hi hf herr
    apply process_of_run_error ord readFile p _ serr _ hscan
    apply run_error_at ord readFile p pre post d _ st _ hpre
    simp [step, hd, hi, stepInclude, hf, herr]

/-- Witness for C6: the test "include non-existent file" (a blank line, an
include of a missing file, further lines), and a rejected define after a
plain line. -/
theorem hook_error_fails_fast_witness :
    Process storedOrder noFiles
        (withInclude (New (ascii "\n#include \"bar.p4\"\n\nfoo : FOO_BITS;\n")) noFiles) =
      ⟨[], some (.includeHook (ascii "bar.p4") "file does not exist")⟩ ∧
    Process storedOrder noFiles
        (withDefine (New (ascii "foo\n#define FOO_BITS 8\nFOO_BITS\n")) rejectDefine) =
      ⟨[], some (.defineHook (ascii "FOO_BITS") (ascii "8") "rejected")⟩ :=
  ⟨(hook_error_fails_fast storedOrder noFiles
      (withInclude (New (ascii "\n#include \"bar.p4\"\n\nfoo : FOO_BITS;\n")) noFiles)
      [[]] [[], ascii "foo : FOO_BITS;"] (ascii "#include \"bar.p4\"") none
      ⟨[], [10], 1, []⟩ (by decide) rfl).2
      (ascii "#include") (ascii "\"bar.p4\"") [] "file does not exist"
      (by decide) (by decide) (by decide) (by decide),
   (hook_error_fails_fast storedOrder noFiles
      (withDefine (New (ascii "foo\n#define FOO_BITS 8\nFOO_BITS\n")) rejectDefine)
      [ascii "foo"] [ascii "FOO_BITS"] (ascii "#define FOO_BITS 8") none
      ⟨[], ascii "foo\n", 1, []⟩ (by decide) rfl).1
      rejectDefine (ascii "#define") (ascii "FOO_BITS") (ascii "8") [] (ascii "FOO_BITS")
      (ascii "8") "rejected" rfl (by decide) (by decide) (by decide)⟩

/-! ## C7: include splicing -/

theorem step_include (ord : RangeOrder) (rf : IncludeFn) (p : Preprocessor) (st : LoopState)
    (d f0 f1 c : List Nat) (hd : hasPrefix d bufDefine = false)
    (hi : hasPrefix d bufInclude = true) (hf : fields d = [f0, f1])
    (hinc : includeFn rf p (trimQuotes f1) = (c, none)) :
    step ord rf p st d =
      .ok ⟨st.defines, st.src ++ applyDefines (ord.pick st.ranges st.defines) c,
        st.ranges + 1, st.calls ++ [.include (trimQuotes f1)]⟩ := by
  simp [step, hd, hi, stepInclude, hf, hinc]

theorem stepDefine_addSrc (ord : RangeOrder) (p : Preprocessor) (pre : List Nat)
    (st : LoopState) (b : List Nat) :
    stepDefine ord p (addSrc pre st) b = (stepDefine ord p st b).map (addSrc pre) := by
  unfold stepDefine
  cases fields b with
  | nil => rfl
  | cons f0 t =>
    cases t with
    | nil => rfl
    | cons name t2 =>
      cases t2 with
      | nil => rfl
      | cons v vs =>
        dsimp only [addSrc]
        generalize defineFn p name
          (applyDefines (ord.pick st.ranges st.defines) (join (v :: vs) [32])) = r
        rcases r with ⟨outName, outValue, _ | e⟩
        · rfl
        · rfl

theorem stepInclude_addSrc (ord : RangeOrder) (rf : IncludeFn) (p : Preprocessor)
    (pre : List Nat) (st : LoopState) (b : List Nat) :
    stepInclude ord rf p (addSrc pre st) b = (stepInclude ord rf p st b).map (addSrc pre) := by
  unfold stepInclude
  cases fields b with
  | nil => rfl
  | cons f0 t =>
    cases t with
    | nil => rfl
    | cons f1 t2 =>
      cases t2 with
      | cons v vs => rfl
      | nil =>
        dsimp only [addSrc]
        generalize includeFn rf p (trimQuotes f1) = r
        rcases r with ⟨c, _ | e⟩
        · simp [Except.map, addSrc]
        · rfl

/-- The output built before a line is a prefix of the output after it and has
no influence on the step. -/
theorem step_addSrc (ord : RangeOrder) (rf : IncludeFn) (p : Preprocessor) (pre : List Nat)
    (st : LoopState) (b : List Nat) :
    step ord rf p (addSrc pre st) b = (step ord rf p st b).map (addSrc pre) := by
  unfold step
  cases hasPrefix b bufDefine
  · cases hasPrefix b bufInclude
    · simp [stepPlain, addSrc, Except.map]
    · simp [stepInclude_addSrc]
  · simp [stepDefine_addSrc]

theorem run_addSrc (ord : RangeOrder) (rf : IncludeFn) (p : Preprocessor) (pre : List Nat)
    (ls : List (List Nat)) :
    ∀ st, run ord rf p (addSrc pre st) ls = (run ord rf p st ls).map (addSrc pre) := by
  induction ls with
  | nil => intro st; rfl
  | cons l ls ih =>
    intro st
    simp only [run, step_addSrc]
    cases step ord rf p st l with
    | error e => rfl
    | ok st1 => simpa [Except.map] using ih st1

/-- Lines `P`, an include line, lines `Q`: the included content, with the
table left by `P` applied to it, stands between the output of `P` and the
output of `Q`. -/
theorem run_include_splice (ord : RangeOrder) (rf : IncludeFn) (p : Preprocessor)
    (P Q : List (List Nat)) (d f0 f1 c : List Nat) (st0 st1 st3 : LoopState)
    (hP : run ord rf p st0 P = .ok st1)
    (hd : hasPrefix d bufDefine = false) (hi : hasPrefix d bufInclude = true)
    (hf : fields d = [f0, f1]) (hinc : includeFn rf p (trimQuotes f1) = (c, none))
    (hQ : run ord rf p
      ⟨st1.defines, [], st1.ranges + 1, st1.calls ++ [.include (trimQuotes f1)]⟩ Q = .ok st3) :
    run ord rf p st0 (P ++ d :: Q) =
      .ok (addSrc (st1.src ++ applyDefines (ord.pick st1.ranges st1.defines) c) st3) := by
  rw [run_append, hP]
  simp only [run, step_include ord rf p st1 d f0 f1 c hd hi hf hinc]
  have := run_addSrc ord rf p (st1.src ++ applyDefines (ord.pick st1.ranges st1.defines) c) Q
    ⟨st1.defines, [], st1.ranges + 1, st1.calls ++ [.include (trimQuotes f1)]⟩
  simp only [addSrc, List.append_nil] at this
  rw [this, hQ]
  rfl

/-- C7: for every input that the scanner splits into lines `P`, an include
line with two fields, and lines `Q`, where the lines `P` are processed to a
state `st1` and the Include hook returns the content `c` for the named file:
the include step leaves the macro table as `P` left it, whatever `c` contains,
and appends to the output exactly `c` with the macros of that table applied
over the whole content, with no newline added; and when the lines `Q`,
processed from that table, produce the output `st3.src`, `Process` returns the
output of `P`, then the substituted content, then the output of `Q`. -/
theorem include_spliced_in_place (ord : RangeOrder) (readFile : IncludeFn) (p : Preprocessor)
    (P Q : List (List Nat)) (d f0 f1 c : List Nat) (st1 : LoopState)
    (hscan : scanLines p.s = (P ++ d :: Q, none))
    (hP : run ord readFile p (initState p) P = .ok st1)
    (hd : hasPrefix d bufDefine = false) (hi : hasPrefix d bufInclude = true)
    (hf : fields d = [f0, f1]) (hinc : includeFn readFile p (trimQuotes f1) = (c, none)) :
    step ord readFile p st1 d =
      .ok ⟨st1.defines, st1.src ++ applyDefines (ord.pick st1.ranges st1.defines) c,
        st1.ranges + 1, st1.calls ++ [.include (trimQuotes f1)]⟩ ∧
    (∀ st3, run ord readFile p
        ⟨st1.defines, [], st1.ranges + 1, st1.calls ++ [.include (trimQuotes f1)]⟩ Q = .ok st3 →
      Process ord readFile p =
        ⟨st1.src ++ applyDefines (ord.pick st1.ranges st1.defines) c ++ st3.src, none⟩) := by
  refine ⟨step_include ord readFile p st1 d f0 f1 c hd hi hf hinc, fun st3 hQ => ?_⟩
  simp only [Process, hscan]
  rw [run_include_splice ord readFile p P Q d f0 f1 c _ st1 st3 hP hd hi hf hinc hQ]
  simp [addSrc]

/-- Witness for C7: a define and a plain line, an include whose content uses
the macro and holds a `#define` line of its own, then a line that uses the
macro: the content is substituted and copied, its define is not interpreted. -/
theorem include_spliced_in_place_witness :
    Process storedOrder noFiles
        (withInclude (New (ascii "#define BAR 16\nfoo\n#include \"bar.p4\"\nBAR\n"))
          (mapInclude [(ascii "bar.p4", ascii "bar : BAR;\n#define BAR 1\n")])) =
      ⟨ascii "foo\n" ++ ascii "bar : 16;\n#define 16 1\n" ++ ascii "16\n", none⟩ :=
  (include_spliced_in_place storedOrder noFiles
    (withInclude (New (ascii "#define BAR 16\nfoo\n#include \"bar.p4\"\nBAR\n"))
      (mapInclude [(ascii "bar.p4", ascii "bar : BAR;\n#define BAR 1\n")]))
    [ascii "#define BAR 16", ascii "foo"] [ascii "BAR"] (ascii "#include \"bar.p4\"")
    (ascii "#include") (ascii "\"bar.p4\"") (ascii "bar : BAR;\n#define BAR 1\n")
    ⟨[(ascii "BAR", ascii "16")], ascii "foo\n", 2, [.define (ascii "BAR") (ascii "16")]⟩
    (by decide) rfl (by decide) (by decide) (by decide) (by decide)).2
    ⟨[(ascii "BAR", ascii "16")], ascii "16\n", 4,
      [.define (ascii "BAR") (ascii "16"), .include (ascii "bar.p4")]⟩ rfl

/-! ## C8: the include example -/

/-- C8 (as stated, refuted): with `bar.p4` mapped to `bar_t\n`, the input
`#include "bar.p4"\nfoo_t\n` gives `bar_t\nfoo_t\n`; the include adds no
newline of its own, so the output is not `bar_t\n\nfoo_t\n`. -/
theorem include_example_counterexample :
    Process storedOrder noFiles
        (withInclude (New (ascii "#include \"bar.p4\"\nfoo_t\n"))
          (mapInclude [(ascii "bar.p4", ascii "bar_t\n")])) ≠
      ⟨ascii "bar_t\n\nfoo_t\n", none⟩ := by
  decide

/-- C8 (amended): with an Include hook that maps `bar.p4` to the content
`bar_t\n`, processing the input `#include "bar.p4"\nfoo_t\n` succeeds and
returns exactly `bar_t\nfoo_t\n`. -/
theorem include_example (ord : RangeOrder) (readFile : IncludeFn) :
    Process ord readFile
        (withInclude (New (ascii "#include \"bar.p4\"\nfoo_t\n"))
          (mapInclude [(ascii "bar.p4", ascii "bar_t\n")])) =
      ⟨ascii "bar_t\nfoo_t\n", none⟩ := by
  have h1 : step ord readFile (withInclude (New (ascii "#include \"bar.p4\"\nfoo_t\n"))
      (mapInclude [(ascii "bar.p4", ascii "bar_t\n")])) ⟨[], [], 0, []⟩
      (ascii "#include \"bar.p4\"") =
      .ok ⟨[], ascii "bar_t\n", 1, [.include (ascii "bar.p4")]⟩ := by
    rw [step_include ord readFile (withInclude (New (ascii "#include \"bar.p4\"\nfoo_t\n"))
      (mapInclude [(ascii "bar.p4", ascii "bar_t\n")])) ⟨[], [], 0, []⟩
      (ascii "#include \"bar.p4\"") (ascii "#include")
      (ascii "\"bar.p4\"") (ascii "bar_t\n") (by decide) (by decide) (by decide) rfl]
    simp only [pick_nil, applyDefines_nil]
    rfl
  have h2 : step ord readFile (withInclude (New (ascii "#include \"bar.p4\"\nfoo_t\n"))
      (mapInclude [(ascii "bar.p4", ascii "bar_t\n")]))
      ⟨[], ascii "bar_t\n", 1, [.include (ascii "bar.p4")]⟩ (ascii "foo_t") =
      .ok ⟨[], ascii "bar_t\nfoo_t\n", 2, [.include (ascii "bar.p4")]⟩ := by
    rw [step_plain ord readFile _ _ (ascii "foo_t") (by decide)]
    simp only [stepPlain, pick_nil, applyDefines_nil]
    rfl
  apply process_of_run_ok ord readFile _ [ascii "#include \"bar.p4\"", ascii "foo_t"]
    ⟨[], ascii "bar_t\nfoo_t\n", 2, [.include (ascii "bar.p4")]⟩ (by decide)
  show run ord readFile _ ⟨[], [], 0, []⟩ _ = _
  simp only [run, h1, h2]

/-! ## C9: a second pass -/

/-- C9 (as stated, refuted): on the input `a\r\r\n` the first pass succeeds
with the output `a\r\n`, which holds no directive, and the second pass turns
it into `a\n`. -/
theorem second_pass_counterexample :
    Process storedOrder noFiles (New (ascii "a\r\r\n")) = ⟨ascii "a\r\n", none⟩ ∧
    (∀ l ∈ (scanLines (ascii "a\r\n")).1, isPlain l) ∧
    Process storedOrder noFiles (New (ascii "a\r\n")) = ⟨ascii "a\n", none⟩ ∧
    Process storedOrder noFiles (New (ascii "a\r\n")) ≠ ⟨ascii "a\r\n", none⟩ := by
  decide

/-- C9 (amended): for every input on which `Process` succeeds and whose
output is empty or ends with a newline, has no carriage return directly before
a newline, has no line of `maxScanTokenSize` bytes or more and no line
beginning with `#define` or `#include`, running `Process` again on that output
(a new preprocessor with the default hooks) succeeds and returns the same
bytes. -/
theorem second_pass_identity (ord1 ord2 : RangeOrder) (readFile : IncludeFn)
    (p : Preprocessor) (out : List Nat)
    (hfirst : Process ord1 readFile p = ⟨out, none⟩)
    (hend : out = [] ∨ out.getLast? = some nl)
    (hcr : ¬ [cr, nl] <:+: out)
    (hscan : (scanLines out).2 = none)
    (hplain : ∀ l ∈ (scanLines out).1, isPlain l) :
    Process ord2 readFile (New (Process ord1 readFile p).out) =
      ⟨(Process ord1 readFile p).out, none⟩ := by
  rw [hfirst]
  exact process_identity_core ord2 readFile (New out) rfl hend hcr hscan hplain

/-- Witness for C9 (amended), on the input of the test "preprocessor ran
twice". -/
theorem second_pass_identity_witness :
    Process reverseOrder noFiles
        (New (Process storedOrder noFiles (New (ascii "\n#define FOO 2\nFOO\n"))).out) =
      ⟨(Process storedOrder noFiles (New (ascii "\n#define FOO 2\nFOO\n"))).out, none⟩ :=
  second_pass_identity storedOrder reverseOrder noFiles (New (ascii "\n#define FOO 2\nFOO\n"))
    (ascii "\n2\n") (by decide) (by decide) (by decide) (by decide) (by decide)

/-! ## C10: the Define hook -/

theorem mem_setDefine (k v : List Nat) (m : Defines) : (k, v) ∈ setDefine k v m := by
  induction m with
  | nil => simp [setDefine]
  | cons kv m ih =>
    by_cases h : kv.1 = k
    · simp [setDefine, h]
    · simp [setDefine, h, ih]

/-- C10: at a `#define` line with at least 3 fields, for every Define hook `h`
that never fails, the hook is called exactly once, with field 1 and the
space-joined remaining fields after substitution of the macros already in the
table, and the pair `(outName, outValue)` it returns is what is registered: the
table maps `outName` to `outValue`, that macro is among those every later range
loop applies, the entry of the directive's own name is untouched when `outName`
differs from it, and when no other macro is defined a later plain line is
output with every occurrence of `outName` replaced by `outValue`.  When the
hook is nil the name and the value are registered unchanged. -/
theorem define_hook_contract (ord : RangeOrder) (readFile : IncludeFn) (p : Preprocessor)
    (st : LoopState) (d f0 name v : List Nat) (vs : List (List Nat))
    (hd : hasPrefix d bufDefine = true) (hf : fields d = f0 :: name :: v :: vs) :
    (∀ h, p.Define = some h → (∀ n x, (h n x).2.2 = none) →
      step ord readFile p st d =
        .ok ⟨setDefine (h name (defineValue ord st (v :: vs))).1
            (h name (defineValue ord st (v :: vs))).2.1 st.defines,
          st.src, st.ranges + 1, st.calls ++ [.define name (defineValue ord st (v :: vs))]⟩ ∧
      lookup (h name (defineValue ord st (v :: vs))).1
          (setDefine (h name (defineValue ord st (v :: vs))).1
            (h name (defineValue ord st (v :: vs))).2.1 st.defines) =
        some (h name (defineValue ord st (v :: vs))).2.1 ∧
      (∀ k, ((h name (defineValue ord st (v :: vs))).1,
          (h name (defineValue ord st (v :: vs))).2.1) ∈
        ord.pick k (setDefine (h name (defineValue ord st (v :: vs))).1
          (h name (defineValue ord st (v :: vs))).2.1 st.defines)) ∧
      ((h name (defineValue ord st (v :: vs))).1 ≠ name →
        lookup name (setDefine (h name (defineValue ord st (v :: vs))).1
            (h name (defineValue ord st (v :: vs))).2.1 st.defines) =
          lookup name st.defines) ∧
      (st.defines = [] → ∀ L, isPlain L →
        run ord readFile p st [d, L] =
          .ok ⟨[((h name (defineValue ord st (v :: vs))).1,
              (h name (defineValue ord st (v :: vs))).2.1)],
            st.src ++ (replace L (h name (defineValue ord st (v :: vs))).1
              (h name (defineValue ord st (v :: vs))).2.1 ++ [nl]),
            st.ranges + 2, st.calls ++ [.define name (defineValue ord st (v :: vs))]⟩)) ∧
    (p.Define = none →
      step ord readFile p st d =
        .ok ⟨setDefine name (defineValue ord st (v :: vs)) st.defines, st.src, st.ranges + 1,
          st.calls ++ [.define name (defineValue ord st (v :: vs))]⟩) := by
  constructor
  · intro h hh hok
    have hcall : defineFn p name (defineValue ord st (v :: vs)) =
        ((h name (defineValue ord st (v :: vs))).1,
          (h name (defineValue ord st (v :: vs))).2.1, none) := by
      have := hok name (defineValue ord st (v :: vs))
      simp only [defineFn, hh]
      exact Prod.ext rfl (Prod.ext rfl this)
    have hstep : step ord readFile p st d =
        .ok ⟨setDefine (h name (defineValue ord st (v :: vs))).1
            (h name (defineValue ord st (v :: vs))).2.1 st.defines,
          st.src, st.ranges + 1, st.calls ++ [.define name (defineValue ord st (v :: vs))]⟩ :=
      step_define ord readFile p st d f0 name v vs _ _ hd hf hcall
    refine ⟨hstep, lookup_setDefine_self _ _ _, ?_, ?_, ?_⟩
    · intro k
      exact (ord.perm k _).mem_iff.mpr (mem_setDefine _ _ _)
    · intro hne
      exact lookup_setDefine_other _ _ _ _ (Ne.symm hne)
    · intro hempty L hL
      simp only [run, hstep, hempty, setDefine]
      rw [step_plain ord readFile p _ L hL]
      simp only [stepPlain, pick_small ord _ [_] (by simp), applyDefines_single]
  · intro hnone
    exact step_define_default ord readFile p st d f0 name v vs hnone hd hf

/-- Witness for C10: a hook that renames `FOO` to `P4_FOO`; the line `FOO
P4_FOO` then has only its second word replaced. -/
theorem define_hook_contract_witness :
    run storedOrder noFiles (withDefine (New []) renameDefine) ⟨[], [], 0, []⟩
        [ascii "#define FOO 1", ascii "FOO P4_FOO"] =
      .ok ⟨[(ascii "P4_FOO", ascii "1")], ascii "FOO 1\n", 2,
        [.define (ascii "FOO") (ascii "1")]⟩ :=
  ((define_hook_contract storedOrder noFiles (withDefine (New []) renameDefine)
    ⟨[], [], 0, []⟩ (ascii "#define FOO 1") (ascii "#define") (ascii "FOO") (ascii "1") []
    (by decide) (by decide)).1 renameDefine rfl (fun _ _ => rfl)).2.2.2.2 rfl
    (ascii "FOO P4_FOO") (by decide)

/-! ## C11: the default include resolution reads the whole file -/

/-- C11 (the code at the failing input): with no Include hook, `Process` reads
the included file with `ioutil.ReadFile`, which returns the whole file, and
appends all of it to the output.  On the input `#include "big.p4"` the output
is the file, byte for byte, whatever its length: a file of `2 * maxFileSize`
bytes gives an output of `2 * maxFileSize` bytes, not of `maxFileSize` bytes. -/
theorem include_not_capped (ord : RangeOrder) (file : List Nat) :
    Process ord (memoryFilesystem file) (New (ascii "#include \"big.p4\"")) = ⟨file, none⟩ ∧
    (Process ord (memoryFilesystem file)
        (New (ascii "#include \"big.p4\""))).out.length = file.length := by
  have h1 : step ord (memoryFilesystem file)
      (New (ascii "#include \"big.p4\"")) ⟨[], [], 0, []⟩ (ascii "#include \"big.p4\"") =
      .ok ⟨[], file, 1, [.include (ascii "big.p4")]⟩ := by
    rw [step_include ord (memoryFilesystem file)
      (New (ascii "#include \"big.p4\"")) ⟨[], [], 0, []⟩ (ascii "#include \"big.p4\"")
      (ascii "#include") (ascii "\"big.p4\"") file
      (by decide) (by decide) (by decide) rfl]
    simp only [pick_nil, applyDefines_nil, List.nil_append]
    rfl
  have hp : Process ord (memoryFilesystem file)
      (New (ascii "#include \"big.p4\"")) = ⟨file, none⟩ := by
    apply process_of_run_ok ord _ _ [ascii "#include \"big.p4\""]
      ⟨[], file, 1, [.include (ascii "big.p4")]⟩ (by decide)
    show run ord _ _ ⟨[], [], 0, []⟩ _ = _
    simp only [run, h1]
  refine ⟨hp, ?_⟩
  rw [hp]

/-- The failing input of C11 at a small size: a file of 8 zero bytes, twice a
cap of 4 bytes, comes out as 8 bytes. -/
theorem include_not_capped_witness :
    Process storedOrder (memoryFilesystem (List.replicate 8 0))
        (New (ascii "#include \"big.p4\"")) = ⟨[0, 0, 0, 0, 0, 0, 0, 0], none⟩ ∧
    (Process storedOrder (memoryFilesystem (List.replicate 8 0))
        (New (ascii "#include \"big.p4\""))).out.length = 8 :=
  include_not_capped storedOrder (List.replicate 8 0)

/-! ## C12: the name handed to the include function -/

theorem trimLeftByte_spec (c : Nat) (s : List Nat) :
    (∃ n, s = List.replicate n c ++ trimLeftByte c s) ∧ (trimLeftByte c s).head? ≠ some c := by
  induction s with
  | nil => exact ⟨⟨0, rfl⟩, by simp [trimLeftByte]⟩
  | cons b bs ih =>
    by_cases hb : b = c
    · subst hb
      obtain ⟨⟨n, hn⟩, hh⟩ := ih
      refine ⟨⟨n + 1, ?_⟩, by simpa [trimLeftByte] using hh⟩
      simp only [trimLeftByte, if_true, List.replicate_succ, List.cons_append]
      rw [← hn]
    · exact ⟨⟨0, by simp [trimLeftByte, hb]⟩, by simp [trimLeftByte, hb]⟩

theorem trimRightByte_spec (c : Nat) (s : List Nat) :
    (∃ n, s = trimRightByte c s ++ List.replicate n c) ∧
      (trimRightByte c s).getLast? ≠ some c := by
  obtain ⟨⟨n, hn⟩, hh⟩ := trimLeftByte_spec c s.reverse
  refine ⟨⟨n, ?_⟩, ?_⟩
  · have := congrArg List.reverse hn
    simpa [trimRightByte] using this
  · simpa [trimRightByte, List.getLast?_reverse] using hh

/-- The call `strings.Trim(s, "\"")` removes every leading and every trailing
quote: what is left neither starts nor ends with a quote. -/
theorem trimQuotes_spec (s : List Nat) :
    (∃ i j, s = List.replicate i quote ++ trimQuotes s ++ List.replicate j quote) ∧
      (trimQuotes s).head? ≠ some quote ∧ (trimQuotes s).getLast? ≠ some quote := by
  obtain ⟨⟨j, hj⟩, hlast⟩ := trimRightByte_spec quote s
  obtain ⟨⟨i, hi⟩, hhead⟩ := trimLeftByte_spec quote (trimRightByte quote s)
  refine ⟨⟨i, j, ?_⟩, hhead, ?_⟩
  · unfold trimQuotes
    rw [← hi, ← hj]
  · unfold trimQuotes
    by_cases ht : trimLeftByte quote (trimRightByte quote s) = []
    · simp [ht]
    · intro h
      apply hlast
      rw [hi, List.getLast?_append_of_ne_nil _ ht]
      exact h

/-- C12 (as stated, refuted): on the line `#include ""a""` the include function
is called with `a`, both layers of quotes stripped, not with `"a"`. -/
theorem include_name_counterexample :
    fields (ascii "#include \"\"a\"\"") = [ascii "#include", ascii "\"\"a\"\""] ∧
    step storedOrder noFiles (withInclude (New []) emptyInclude) ⟨[], [], 0, []⟩
        (ascii "#include \"\"a\"\"") = .ok ⟨[], [], 1, [.include (ascii "a")]⟩ ∧
    Call.include (ascii "a") ≠ Call.include (ascii "\"a\"") := by
  refine ⟨by decide, rfl, by decide⟩

/-- C12 (amended): for every `#include` line with exactly 2 fields, the include
function is called with field 2 with all its leading and all its trailing
double-quote characters stripped (the name handed over neither starts nor ends
with a quote), so that `#include ""a""` calls it with `a`: on success the call
is recorded with that name, on failure the error carries that name. -/
theorem include_name_all_quotes_stripped (ord : RangeOrder) (readFile : IncludeFn)
    (p : Preprocessor) (st : LoopState) (d f0 f1 : List Nat)
    (hd : hasPrefix d bufDefine = false) (hi : hasPrefix d bufInclude = true)
    (hf : fields d = [f0, f1]) :
    (∀ c, includeFn readFile p (trimQuotes f1) = (c, none) →
      ∃ st1, step ord readFile p st d = .ok st1 ∧
        st1.calls = st.calls ++ [.include (trimQuotes f1)]) ∧
    (∀ c e, includeFn readFile p (trimQuotes f1) = (c, some e) →
      step ord readFile p st d = .error (.includeHook (trimQuotes f1) e)) ∧
    (∃ i j, f1 = List.replicate i quote ++ trimQuotes f1 ++ List.replicate j quote) ∧
    (trimQuotes f1).head? ≠ some quote ∧ (trimQuotes f1).getLast? ≠ some quote := by
  refine ⟨fun c hc => ⟨_, step_include ord readFile p st d f0 f1 c hd hi hf hc, rfl⟩,
    fun c e he => ?_, trimQuotes_spec f1⟩
  simp [step, hd, hi, stepInclude, hf, he]

/-- Witness for C12 (amended), on the lines `#include "bar.p4"` and
`#include ""a""`. -/
theorem include_name_all_quotes_stripped_witness :
    (∃ st1, step storedOrder noFiles
        (withInclude (New []) (mapInclude [(ascii "bar.p4", ascii "bar_t\n")]))
        ⟨[], [], 0, []⟩ (ascii "#include \"bar.p4\"") = .ok st1 ∧
      st1.calls = [] ++ [.include (trimQuotes (ascii "\"bar.p4\""))]) ∧
    trimQuotes (ascii "\"bar.p4\"") = ascii "bar.p4" ∧
    trimQuotes (ascii "\"\"a\"\"") = ascii "a" :=
  ⟨(include_name_all_quotes_stripped storedOrder noFiles
      (withInclude (New []) (mapInclude [(ascii "bar.p4", ascii "bar_t\n")]))
      ⟨[], [], 0, []⟩ (ascii "#include \"bar.p4\"") (ascii "#include") (ascii "\"bar.p4\"")
      (by decide) (by decide) (by decide)).1 (ascii "bar_t\n") rfl,
    by decide, by decide⟩

/-! ## C13: the order in which the macros are applied -/

theorem clearOf_suffix (u k s : List Nat) (h : clearOf u k = true) (hs : s <:+ u)
    (hne : s ≠ []) : ¬ k <+: s ∧ ¬ s <+: k := by
  have hmem : s ∈ u.tails := (List.mem_tails s u).mpr hs
  have := List.all_eq_true.mp h s hmem
  have he : s.isEmpty = false := by
    cases s with
    | nil => exact absurd rfl hne
    | cons _ _ => rfl
  constructor
  · intro hp
    have h1 := List.isPrefixOf_iff_prefix.mpr hp
    rw [he, h1] at this
    simp at this
  · intro hp
    have h1 := List.isPrefixOf_iff_prefix.mpr hp
    rw [he, h1] at this
    simp at this

theorem replaceFrom_skip (old new : List Nat) :
    ∀ (s : List Nat) (n : Nat), replaceFrom old new n s = replaceFrom old new 0 (s.drop n) := by
  intro s
  induction s with
  | nil => intro n; cases n <;> simp [replaceFrom]
  | cons c cs ih =>
    intro n
    cases n with
    | zero => rfl
    | succ k => simpa [replaceFrom] using ih k

/-- At an occurrence of `old` the replacement is written and the scan goes on
behind the occurrence. -/
theorem replaceFrom_match (old new t : List Nat) (h : old ≠ []) :
    replaceFrom old new 0 (old ++ t) = new ++ replaceFrom old new 0 t := by
  obtain ⟨c, o, rfl⟩ := List.exists_cons_of_ne_nil h
  have hp : (c :: o).isPrefixOf (c :: (o ++ t)) = true :=
    List.isPrefixOf_iff_prefix.mpr ⟨t, rfl⟩
  have e : replaceFrom (c :: o) new 0 (c :: (o ++ t)) =
      if (c :: o).isPrefixOf (c :: (o ++ t)) then
        new ++ replaceFrom (c :: o) new ((c :: o).length - 1) (o ++ t)
      else c :: replaceFrom (c :: o) new 0 (o ++ t) := rfl
  rw [List.cons_append, e, if_pos hp, replaceFrom_skip]
  simp

/-- Where `old` does not occur the byte is copied. -/
theorem replaceFrom_copy (old new t : List Nat) (c : Nat) (h : ¬ old <+: c :: t) :
    replaceFrom old new 0 (c :: t) = c :: replaceFrom old new 0 t := by
  have hp : old.isPrefixOf (c :: t) = false := by
    cases hb : old.isPrefixOf (c :: t) with
    | false => rfl
    | true => exact absurd ( List.isPrefixOf_iff_prefix.mp hb) h
  simp [replaceFrom, hp]

/-- A text inside which no occurrence of `k` can begin is copied. -/
theorem replaceFrom_clear (u k v t : List Nat) (h : clearOf u k = true) :
    ∀ s, s <:+ u → replaceFrom k v 0 (s ++ t) = s ++ replaceFrom k v 0 t := by
  intro s
  induction s with
  | nil => intro _; rfl
  | cons c s ih =>
    intro hs
    have hc := clearOf_suffix u k (c :: s) h hs (by simp)
    have hno : ¬ k <+: c :: (s ++ t) := by
      intro hk
      rcases List.prefix_or_prefix_of_prefix hk (List.prefix_append (c :: s) t) with h1 | h1
      · exact hc.1 h1
      · exact hc.2 h1
    rw [List.cons_append, replaceFrom_copy k v (s ++ t) c hno,
      ih ((List.suffix_cons c s).trans hs)]
    rfl

/-- Replacing `k` by `v` creates no new start of `u`: an end of `u` that
begins the rewritten text begins the text itself. -/
theorem start_of_replaced (u k v : List Nat) (hk : k ≠ []) (h : clearOf u v = true) :
    ∀ z w, w <:+ u → w <+: replaceFrom k v 0 z → w <+: z := by
  intro z
  induction z with
  | nil => intro w _ hw; simpa [replaceFrom] using hw
  | cons c z ih =>
    intro w hs hw
    by_cases hw0 : w = []
    · subst hw0; exact List.nil_prefix
    by_cases m : k <+: c :: z
    · exfalso
      obtain ⟨t, ht⟩ := m
      rw [← ht, replaceFrom_match k v t hk] at hw
      have hc := clearOf_suffix u v w h hs hw0
      rcases List.prefix_or_prefix_of_prefix hw (List.prefix_append v _) with h1 | h1
      · exact hc.2 h1
      · exact hc.1 h1
    · rw [replaceFrom_copy k v z c m] at hw
      rcases List.prefix_cons_iff.mp hw with h0 | ⟨t, ht, htz⟩
      · exact absurd h0 hw0
      · subst ht
        have hts : t <:+ u := (List.suffix_cons c t).trans hs
        exact (List.prefix_cons_inj c).mpr (ih t hts htz)

theorem no_start_after_copy (k1 v1 k2 z : List Nat) (c : Nat) (h1 : k1 ≠ [])
    (hc : clearOf k2 v1 = true) (m2 : ¬ k2 <+: c :: z) :
    ¬ k2 <+: c :: replaceFrom k1 v1 0 z := by
  intro hk
  rcases List.prefix_cons_iff.mp hk with h0 | ⟨t, ht, htz⟩
  · exact m2 (h0 ▸ List.nil_prefix)
  · have hts : t <:+ k2 := ht ▸ List.suffix_cons c t
    have := start_of_replaced k2 k1 v1 h1 hc z t hts htz
    exact m2 (ht ▸ (List.prefix_cons_inj c).mpr this)

/-- Two macros whose names overlap neither each other nor the other's value
can be applied in either order. -/
theorem replaceFrom_comm (k1 v1 k2 v2 : List Nat) (h1 : k1 ≠ []) (h2 : k2 ≠ [])
    (c12 : clearOf k1 k2 = true) (c21 : clearOf k2 k1 = true)
    (cv1 : clearOf v1 k2 = true) (ck2 : clearOf k2 v1 = true)
    (cv2 : clearOf v2 k1 = true) (ck1 : clearOf k1 v2 = true) :
    ∀ z, replaceFrom k2 v2 0 (replaceFrom k1 v1 0 z) =
      replaceFrom k1 v1 0 (replaceFrom k2 v2 0 z) := by
  suffices H : ∀ n, ∀ z : List Nat, z.length ≤ n →
      replaceFrom k2 v2 0 (replaceFrom k1 v1 0 z) =
        replaceFrom k1 v1 0 (replaceFrom k2 v2 0 z) from fun z => H z.length z (Nat.le_refl _)
  intro n
  induction n with
  | zero =>
    intro z hz
    have : z = [] := List.length_eq_zero.mp (Nat.le_zero.mp hz)
    subst this
    rfl
  | succ n ih =>
    intro z hz
    match z, hz with
    | [], _ => rfl
    | c :: z, hz =>
      have hlen : z.length ≤ n := by simpa using hz
      by_cases m1 : k1 <+: c :: z
      · obtain ⟨t, ht⟩ := m1
        have htl : t.length ≤ n := by
          have := congrArg List.length ht
          have hk : 0 < k1.length := List.length_pos.mpr h1
          simp at this
          omega
        rw [← ht, replaceFrom_match k1 v1 t h1, replaceFrom_clear v1 k2 v2 _ cv1 v1
          (List.suffix_refl _), replaceFrom_clear k1 k2 v2 _ c12 k1 (List.suffix_refl _),
          replaceFrom_match k1 v1 _ h1, ih t htl]
      · by_cases m2 : k2 <+: c :: z
        · obtain ⟨t, ht⟩ := m2
          have htl : t.length ≤ n := by
            have := congrArg List.length ht
            have hk : 0 < k2.length := List.length_pos.mpr h2
            simp at this
            omega
          rw [← ht, replaceFrom_match k2 v2 t h2, replaceFrom_clear v2 k1 v1 _ cv2 v2
            (List.suffix_refl _), replaceFrom_clear k2 k1 v1 _ c21 k2 (List.suffix_refl _),
            replaceFrom_match k2 v2 _ h2, ih t htl]
        · rw [replaceFrom_copy k1 v1 z c m1, replaceFrom_copy k2 v2 z c m2,
            replaceFrom_copy k2 v2 _ c (no_start_after_copy k1 v1 k2 z c h1 ck2 m2),
            replaceFrom_copy k1 v1 _ c (no_start_after_copy k2 v2 k1 z c h2 ck1 m1),
            ih z hlen]

theorem clearOf_nil_right (u : List Nat) (h : clearOf u [] = true) : u = [] := by
  by_contra hne
  exact (clearOf_suffix u [] u h (List.suffix_refl u) hne).1 List.nil_prefix

theorem replace_comm_of_overlapFree (m : Defines) (hfree : overlapFree m)
    (x : List Nat × List Nat) (hx : x ∈ m) (y : List Nat × List Nat) (hy : y ∈ m)
    (z : List Nat) :
    replace (replace z x.1 x.2) y.1 y.2 = replace (replace z y.1 y.2) x.1 x.2 := by
  by_cases hxy : x = y
  · subst hxy; rfl
  obtain ⟨hn, hv⟩ := hfree x hx y hy hxy
  obtain ⟨_, hw⟩ := hfree y hy x hx (Ne.symm hxy)
  simp only [noOverlap, Bool.and_eq_true] at hn hv hw
  have hx1 : x.1 ≠ [] := by
    intro h0
    have hy1 : y.1 = [] := clearOf_nil_right _ (h0 ▸ hn.2)
    have hx2 : x.2 = [] := clearOf_nil_right _ (hy1 ▸ hv.1)
    have hy2 : y.2 = [] := clearOf_nil_right _ (h0 ▸ hw.1)
    exact hxy (Prod.ext (h0.trans hy1.symm) (hx2.trans hy2.symm))
  have hy1 : y.1 ≠ [] := by
    intro h0
    exact hx1 (clearOf_nil_right _ (h0 ▸ hn.1))
  simp only [replace, hx1, hy1, if_false]
  exact replaceFrom_comm x.1 x.2 y.1 y.2 hx1 hy1 hn.1 hn.2 hv.1 hv.2 hw.1 hw.2 z

/-- C13 (as stated, refuted): the table left by `#define A B` and `#define B c`
applied to the text `A` gives `c` when `A` is visited first and `B` when `B` is
visited first. -/
theorem substitution_order_counterexample :
    (∃ st, run storedOrder noFiles (New []) ⟨[], [], 0, []⟩
        [ascii "#define A B", ascii "#define B c"] = .ok st ∧
      st.defines = [(ascii "A", ascii "B"), (ascii "B", ascii "c")]) ∧
    [(ascii "B", ascii "c"), (ascii "A", ascii "B")].Perm
      [(ascii "A", ascii "B"), (ascii "B", ascii "c")] ∧
    applyDefines [(ascii "A", ascii "B"), (ascii "B", ascii "c")] (ascii "A") = ascii "c" ∧
    applyDefines [(ascii "B", ascii "c"), (ascii "A", ascii "B")] (ascii "A") = ascii "B" ∧
    applyDefines [(ascii "A", ascii "B"), (ascii "B", ascii "c")] (ascii "A") ≠
      applyDefines [(ascii "B", ascii "c"), (ascii "A", ascii "B")] (ascii "A") := by
  refine ⟨⟨_, rfl, rfl⟩, List.Perm.swap _ _ _, by decide, by decide, by decide⟩

/-- C13 (amended): for every macro table in which the name of a macro overlaps
neither the name nor the value of another macro (neither text occurs in the
other, and no non-empty end of one is a start of the other), and for every
text, applying the table's macros one after another as replace-all gives the
same result for every order in which the table's entries are enumerated. -/
theorem substitution_order_free (m : Defines) (hfree : overlapFree m) (o1 o2 : Defines)
    (h1 : o1.Perm m) (h2 : o2.Perm m) (text : List Nat) :
    applyDefines o1 text = applyDefines o2 text := by
  unfold applyDefines
  exact List.Perm.foldl_eq' (h1.trans h2.symm)
    (fun x hx y hy z =>
      replace_comm_of_overlapFree m hfree x (h1.subset hx) y (h1.subset hy) z) text

/-- Witness for C13 (amended): the table of the test "multiple defines",
enumerated first to last and last to first. -/
theorem substitution_order_free_witness :
    applyDefines
        [(ascii "FOO_BITS", ascii "8"), (ascii "BAR_BITS", ascii "16"),
          (ascii "FOO_LEN", ascii "24")] (ascii "foo : FOO_BITS; length : FOO_LEN;") =
      applyDefines
        [(ascii "FOO_LEN", ascii "24"), (ascii "BAR_BITS", ascii "16"),
          (ascii "FOO_BITS", ascii "8")] (ascii "foo : FOO_BITS; length : FOO_LEN;") :=
  substitution_order_free
    [(ascii "FOO_BITS", ascii "8"), (ascii "BAR_BITS", ascii "16"),
      (ascii "FOO_LEN", ascii "24")] (by decide) _ _ (List.Perm.refl _)
    (List.reverse_perm
      [(ascii "FOO_BITS", ascii "8"), (ascii "BAR_BITS", ascii "16"),
        (ascii "FOO_LEN", ascii "24")]) _

/-! ## C14: what is expanded again -/

/-- Two define lines for distinct names, with the default Define hook, from an
empty table. -/
theorem run_two_defines (ord : RangeOrder) (rf : IncludeFn) (p : Preprocessor)
    (hdef : p.Define = none) (dA dB fA fB A B v w : List Nat) (vs ws : List (List Nat))
    (hdA : hasPrefix dA bufDefine = true) (hfA : fields dA = fA :: A :: v :: vs)
    (hdB : hasPrefix dB bufDefine = true) (hfB : fields dB = fB :: B :: w :: ws)
    (hne : A ≠ B) (src : List Nat) (n : Nat) (calls : List Call) :
    run ord rf p ⟨[], src, n, calls⟩ [dA, dB] =
      .ok ⟨[(A, join (v :: vs) [32]),
          (B, replace (join (w :: ws) [32]) A (join (v :: vs) [32]))], src, n + 1 + 1,
        calls ++ [.define A (join (v :: vs) [32])] ++
          [.define B (replace (join (w :: ws) [32]) A (join (v :: vs) [32]))]⟩ := by
  have h1 := step_define_default ord rf p ⟨[], src, n, calls⟩ dA fA A v vs hdef hdA hfA
  simp only [pick_nil, applyDefines_nil, setDefine] at h1
  have h2 := step_define_default ord rf p
    ⟨[(A, join (v :: vs) [32])], src, n + 1, calls ++ [.define A (join (v :: vs) [32])]⟩
    dB fB B w ws hdef hdB hfB
  simp only [pick_small ord _ [_] (by simp), applyDefines_single, setDefine, hne,
    if_false] at h2
  simp only [run, h1, h2]

/-- After `#define A B` and `#define B c` the plain line `A` comes out as `c`
or as `B`, as the range over the table visits `A` first or `B` first. -/
theorem run_A_B_c (ord : RangeOrder) (rf : IncludeFn) (p : Preprocessor)
    (hdef : p.Define = none) :
    ∃ st, run ord rf p ⟨[], [], 0, []⟩
        [ascii "#define A B", ascii "#define B c", ascii "A"] = .ok st ∧
      st.src = applyDefines (ord.pick 2 [(ascii "A", ascii "B"), (ascii "B", ascii "c")])
        (ascii "A") ++ [nl] := by
  have h2 := run_two_defines ord rf p hdef (ascii "#define A B") (ascii "#define B c")
    (ascii "#define") (ascii "#define") (ascii "A") (ascii "B") (ascii "B") (ascii "c") [] []
    (by decide) (by decide) (by decide) (by decide) (by decide) [] 0 []
  have hv : replace (join [ascii "c"] [32]) (ascii "A") (join [ascii "B"] [32]) = ascii "c" := by
    decide
  have hj : join [ascii "B"] [32] = ascii "B" := by decide
  rw [hv, hj] at h2
  have h3 := run_append ord rf p [ascii "#define A B", ascii "#define B c"] [ascii "A"]
    ⟨[], [], 0, []⟩
  simp only [h2] at h3
  have h4 : [ascii "#define A B", ascii "#define B c"] ++ [ascii "A"] =
      [ascii "#define A B", ascii "#define B c", ascii "A"] := rfl
  rw [h4] at h3
  rw [h3]
  simp only [run, step_plain ord rf p _ (ascii "A") (by decide), stepPlain]
  exact ⟨_, rfl, rfl⟩

/-- C14 (as stated, refuted): after `#define A B` and `#define B c`, when the
range over the table visits `A` before `B` the plain line `A` is output as
`c`: the `B` written for `A` is expanded again by the macro `B`. -/
theorem no_reexpansion_counterexample :
    Process storedOrder noFiles (New (ascii "#define A B\n#define B c\nA\n")) =
      ⟨ascii "c\n", none⟩ ∧
    Process storedOrder noFiles (New (ascii "#define A B\n#define B c\nA\n")) ≠
      ⟨ascii "B\n", none⟩ := by
  decide

/-- C14 (amended): substitution over a line applies each macro of the table
once, as one replace-all pass, one macro after the other in the order of the
range: text written for one macro is expanded again by the macros visited
after it and by none visited before it, and a macro is not applied to its own
expansion.  After `#define A B` followed by `#define B c` the plain line `A`
is output as `c` when the range visits `A` first and as `B` when it visits `B`
first; after `#define A AA` the line `A` is output as `AA`. -/
theorem expansion_follows_range_order (ord : RangeOrder) (readFile : IncludeFn) :
    (∀ (p : Preprocessor) (st : LoopState) (L : List Nat), isPlain L →
      step ord readFile p st L =
        .ok ⟨st.defines,
          st.src ++ ((ord.pick st.ranges st.defines).foldl
            (fun acc kv => replace acc kv.1 kv.2) L ++ [nl]),
          st.ranges + 1, st.calls⟩) ∧
    (ord.pick 2 [(ascii "A", ascii "B"), (ascii "B", ascii "c")] =
        [(ascii "A", ascii "B"), (ascii "B", ascii "c")] →
      Process ord readFile (New (ascii "#define A B\n#define B c\nA\n")) =
        ⟨ascii "c\n", none⟩) ∧
    (ord.pick 2 [(ascii "A", ascii "B"), (ascii "B", ascii "c")] =
        [(ascii "B", ascii "c"), (ascii "A", ascii "B")] →
      Process ord readFile (New (ascii "#define A B\n#define B c\nA\n")) =
        ⟨ascii "B\n", none⟩) ∧
    (Process ord readFile (New (ascii "#define A B\n#define B c\nA\n")) = ⟨ascii "c\n", none⟩ ∨
      Process ord readFile (New (ascii "#define A B\n#define B c\nA\n")) =
        ⟨ascii "B\n", none⟩) ∧
    Process ord readFile (New (ascii "#define A AA\nA\n")) = ⟨ascii "AA\n", none⟩ := by
  obtain ⟨st, hrun, hsrc⟩ := run_A_B_c ord readFile
    (New (ascii "#define A B\n#define B c\nA\n")) rfl
  have hp : Process ord readFile (New (ascii "#define A B\n#define B c\nA\n")) =
      ⟨applyDefines (ord.pick 2 [(ascii "A", ascii "B"), (ascii "B", ascii "c")])
        (ascii "A") ++ [nl], none⟩ := by
    rw [← hsrc]
    exact process_of_run_ok ord readFile _ _ st (by decide) hrun
  have hc : ∀ o : Defines, o = [(ascii "A", ascii "B"), (ascii "B", ascii "c")] →
      applyDefines o (ascii "A") ++ [nl] = ascii "c\n" := by
    intro o ho; subst ho; decide
  have hb : ∀ o : Defines, o = [(ascii "B", ascii "c"), (ascii "A", ascii "B")] →
      applyDefines o (ascii "A") ++ [nl] = ascii "B\n" := by
    intro o ho; subst ho; decide
  refine ⟨fun p st L hL => step_plain ord readFile p st L hL, ?_, ?_, ?_, ?_⟩
  · intro h
    rw [hp, hc _ h]
  · intro h
    rw [hp, hb _ h]
  · rcases pick_pair ord 2 (ascii "A", ascii "B") (ascii "B", ascii "c") with h | h
    · left; rw [hp, hc _ h]
    · right; rw [hp, hb _ h]
  · have := define_scope_aux ord readFile (ascii "#define A AA\nA\n") [] [ascii "A"]
      (ascii "#define A AA") (ascii "#define") (ascii "A") (ascii "AA") []
      (by decide) (by simp) (by decide) (by decide) (by decide)
    rw [this]
    decide

/-- Witness for C14 (amended): the range that visits the entries last to
first gives `B`. -/
theorem expansion_follows_range_order_witness :
    Process reverseOrder noFiles (New (ascii "#define A B\n#define B c\nA\n")) =
      ⟨ascii "B\n", none⟩ :=
  (expansion_follows_range_order reverseOrder noFiles).2.2.1 (by decide)

/-! ## C15: how a line is classified -/

theorem hasPrefix_iff_take (b q : List Nat) : hasPrefix b q = true ↔ b.take q.length = q := by
  unfold hasPrefix
  rw [List.isPrefixOf_iff_prefix, List.prefix_iff_eq_take]
  exact eq_comm

theorem hasPrefix_of_head_ne (c : Nat) (rest q : List Nat) (d : Nat) (hq : c ≠ d) :
    hasPrefix (c :: rest) (d :: q) = false := by
  simp [hasPrefix, List.isPrefixOf, Ne.symm hq]

/-- C15: a line is handled as a define directive if and only if its first 7
bytes are `#define`, and otherwise as an include directive if and only if its
first 8 bytes are `#include`; every other line is a plain line.  Hence a line
whose first byte is not `#`, such as one with a space before `#define`, is
emitted as a plain line (substituted, plus a newline) and leaves the macro
table as it is, while the line `#defineX Y Z` is handled as a define directive
and registers `Y` as `Z`. -/
theorem classification_by_exact_bytes (ord : RangeOrder) (readFile : IncludeFn)
    (p : Preprocessor) (st : LoopState) (b : List Nat) :
    (b.take 7 = bufDefine → step ord readFile p st b = stepDefine ord p st b) ∧
    (b.take 7 ≠ bufDefine → b.take 8 = bufInclude →
      step ord readFile p st b = stepInclude ord readFile p st b) ∧
    (b.take 7 ≠ bufDefine → b.take 8 ≠ bufInclude →
      step ord readFile p st b =
        .ok ⟨st.defines, st.src ++ (applyDefines (ord.pick st.ranges st.defines) b ++ [nl]),
          st.ranges + 1, st.calls⟩) ∧
    (∀ c rest, c ≠ 35 →
      step ord readFile p st (c :: rest) =
        .ok ⟨st.defines,
          st.src ++ (applyDefines (ord.pick st.ranges st.defines) (c :: rest) ++ [nl]),
          st.ranges + 1, st.calls⟩) ∧
    (∀ rest, step ord readFile p st (32 :: (bufDefine ++ rest)) =
        .ok ⟨st.defines,
          st.src ++ (applyDefines (ord.pick st.ranges st.defines)
            (32 :: (bufDefine ++ rest)) ++ [nl]),
          st.ranges + 1, st.calls⟩) ∧
    (p.Define = none → st.defines = [] →
      step ord readFile p st (ascii "#defineX Y Z") =
        .ok ⟨[(ascii "Y", ascii "Z")], st.src, st.ranges + 1,
          st.calls ++ [.define (ascii "Y") (ascii "Z")]⟩) := by
  have hd7 : hasPrefix b bufDefine = true ↔ b.take 7 = bufDefine := hasPrefix_iff_take b bufDefine
  have hi8 : hasPrefix b bufInclude = true ↔ b.take 8 = bufInclude :=
    hasPrefix_iff_take b bufInclude
  have hplain : ∀ l : List Nat, isPlain l →
      step ord readFile p st l =
        .ok ⟨st.defines, st.src ++ (applyDefines (ord.pick st.ranges st.defines) l ++ [nl]),
          st.ranges + 1, st.calls⟩ := fun l hl => step_plain ord readFile p st l hl
  refine ⟨?_, ?_, ?_, ?_, ?_, ?_⟩
  · intro h
    simp [step, hd7.mpr h]
  · intro h7 h8
    have hd : hasPrefix b bufDefine = false :=
      hasPrefix_false_of_ne_true _ _ (fun h => h7 (hd7.mp h))
    simp [step, hd, hi8.mpr h8]
  · intro h7 h8
    exact hplain b ⟨hasPrefix_false_of_ne_true _ _ (fun h => h7 (hd7.mp h)),
      hasPrefix_false_of_ne_true _ _ (fun h => h8 (hi8.mp h))⟩
  · intro c rest hc
    exact hplain _ ⟨hasPrefix_of_head_ne c rest _ 35 hc, hasPrefix_of_head_ne c rest _ 35 hc⟩
  · intro rest
    exact hplain _ ⟨hasPrefix_of_head_ne 32 _ _ 35 (by decide),
      hasPrefix_of_head_ne 32 _ _ 35 (by decide)⟩
  · intro hdef hempty
    have := step_define_default ord readFile p st (ascii "#defineX Y Z") (ascii "#defineX")
      (ascii "Y") (ascii "Z") [] hdef (by decide) (by decide)
    rw [this]
    simp only [hempty, pick_nil, applyDefines_nil, setDefine]
    rfl

/-- Witness for C15: the line ` #define FOO 1` (one space in front) is copied
and defines nothing; `#defineX Y Z` defines `Y`. -/
theorem classification_by_exact_bytes_witness :
    step storedOrder noFiles (New []) ⟨[], [], 0, []⟩ (ascii " #define FOO 1") =
      .ok ⟨[], ascii " #define FOO 1\n", 1, []⟩ ∧
    step storedOrder noFiles (New []) ⟨[], [], 0, []⟩ (ascii "#defineX Y Z") =
      .ok ⟨[(ascii "Y", ascii "Z")], [], 1, [.define (ascii "Y") (ascii "Z")]⟩ :=
  ⟨(classification_by_exact_bytes storedOrder noFiles (New []) ⟨[], [], 0, []⟩
      (ascii " #define FOO 1")).2.2.1 (by decide) (by decide),
   (classification_by_exact_bytes storedOrder noFiles (New []) ⟨[], [], 0, []⟩
      []).2.2.2.2.2 rfl rfl⟩

/-! ## C16: how a define line is parsed -/

theorem fieldsFrom_zero_flag (sp : Bool) (cur s : List Nat) :
    fieldsFrom 0 sp cur s = fieldsFrom 0 false cur s := by
  cases s <;> rfl

theorem fieldsFrom_ascii (sp : Bool) (cur bs : List Nat) (b : Nat) (hb : b < 0x80) :
    fieldsFrom 0 sp cur (b :: bs) =
      if isSpace b then
        if cur = [] then fieldsFrom 0 false [] bs else cur :: fieldsFrom 0 false [] bs
      else fieldsFrom 0 false (cur ++ [b]) bs := by
  have h80 : ¬ 0x80 ≤ b := Nat.not_le.mpr hb
  simp only [fieldsFrom, h80, if_false, Nat.sub_self]
  rw [fieldsFrom_zero_flag true [] bs]

theorem fieldsFrom_word (t : List Nat) :
    ∀ (w cur : List Nat) (sp : Bool), (∀ b ∈ w, b < 0x80 ∧ isSpace b = false) →
      fieldsFrom 0 sp cur (w ++ t) = fieldsFrom 0 false (cur ++ w) t := by
  intro w
  induction w with
  | nil => intro cur sp _; simpa using fieldsFrom_zero_flag sp cur t
  | cons b w ih =>
    intro cur sp h
    have hb := h b (List.mem_cons_self _ _)
    rw [List.cons_append, fieldsFrom_ascii sp cur (w ++ t) b hb.1]
    simp only [hb.2, Bool.false_eq_true, if_false]
    rw [ih (cur ++ [b]) false (fun x hx => h x (List.mem_cons_of_mem _ hx))]
    simp

theorem fieldsFrom_spaces (t : List Nat) :
    ∀ (g : List Nat) (sp : Bool), (∀ b ∈ g, b < 0x80 ∧ isSpace b = true) →
      fieldsFrom 0 sp [] (g ++ t) = fieldsFrom 0 false [] t := by
  intro g
  induction g with
  | nil => intro sp _; simpa using fieldsFrom_zero_flag sp [] t
  | cons b g ih =>
    intro sp h
    have hb := h b (List.mem_cons_self _ _)
    rw [List.cons_append, fieldsFrom_ascii sp [] (g ++ t) b hb.1]
    simp only [hb.2, if_true]
    exact ih false (fun x hx => h x (List.mem_cons_of_mem _ hx))

theorem fieldsFrom_gap (t g cur : List Nat) (sp : Bool) (hg : isGap g) (hcur : cur ≠ []) :
    fieldsFrom 0 sp cur (g ++ t) = cur :: fieldsFrom 0 false [] t := by
  obtain ⟨hne, hall⟩ := hg
  obtain ⟨b, g1, rfl⟩ := List.exists_cons_of_ne_nil hne
  have hb := hall b (List.mem_cons_self _ _)
  rw [List.cons_append, fieldsFrom_ascii sp cur (g1 ++ t) b hb.1]
  simp only [hb.2, if_true, hcur, if_false]
  rw [fieldsFrom_spaces t g1 false (fun x hx => hall x (List.mem_cons_of_mem _ hx))]

theorem fieldsFrom_spaced :
    ∀ (rest : List (List Nat × List Nat)) (w cur : List Nat), isWord w →
      (∀ gw ∈ rest, isGap gw.1 ∧ isWord gw.2) →
      fieldsFrom 0 false cur (spaced w rest) = (cur ++ w) :: rest.map (fun gw => gw.2) := by
  intro rest
  induction rest with
  | nil =>
    intro w cur hw _
    have := fieldsFrom_word [] w cur false hw.2
    simp only [List.append_nil] at this
    simp [spaced, this, fieldsFrom, hw.1]
  | cons gw rest ih =>
    intro w cur hw h
    have hgw := h gw (List.mem_cons_self _ _)
    simp only [spaced]
    rw [fieldsFrom_word _ w cur false hw.2,
      fieldsFrom_gap _ gw.1 (cur ++ w) false hgw.1 (by simp [hw.1]),
      ih gw.2 [] hgw.2 (fun x hx => h x (List.mem_cons_of_mem _ hx))]
    simp

/-- ASCII words separated by any non-empty runs of ASCII white space are the
fields of the line. -/
theorem fields_spaced (w : List Nat) (rest : List (List Nat × List Nat)) (hw : isWord w)
    (h : ∀ gw ∈ rest, isGap gw.1 ∧ isWord gw.2) :
    fields (spaced w rest) = w :: rest.map (fun gw => gw.2) := by
  have := fieldsFrom_spaced rest w [] hw h
  simpa [fields] using this

theorem join_single (v sep : List Nat) : join [v] sep = v := by
  simp [join, List.intercalate]

theorem join_cons_cons (v w sep : List Nat) (ws : List (List Nat)) :
    join (v :: w :: ws) sep = v ++ sep ++ join (w :: ws) sep := by
  simp [join, List.intercalate]

/-- C16: for every `#define` line with at least 3 fields, the macro name is
field 1 as it stands and the raw value is the fields from field 2 on, joined
with exactly one space between consecutive fields: that name and that value
(with the macros of the table applied) are handed to the define function, and
with the default hook and an empty table they are what is registered.  The
fields do not depend on the white space that separated them: ASCII words
separated by any non-empty runs of spaces, tabs and other ASCII white space
have those words as fields; `#define FOO  a \t b` gives the raw value `a b`. -/
theorem define_line_parsed (ord : RangeOrder) (readFile : IncludeFn) (p : Preprocessor)
    (st : LoopState) (d f0 name v : List Nat) (vs : List (List Nat))
    (hd : hasPrefix d bufDefine = true) (hf : fields d = f0 :: name :: v :: vs) :
    (∀ outName outValue,
      defineFn p name (applyDefines (ord.pick st.ranges st.defines) (join (v :: vs) [32])) =
        (outName, outValue, none) →
      step ord readFile p st d =
        .ok ⟨setDefine outName outValue st.defines, st.src, st.ranges + 1,
          st.calls ++ [.define name
            (applyDefines (ord.pick st.ranges st.defines) (join (v :: vs) [32]))]⟩) ∧
    (p.Define = none → st.defines = [] →
      step ord readFile p st d =
        .ok ⟨[(name, join (v :: vs) [32])], st.src, st.ranges + 1,
          st.calls ++ [.define name (join (v :: vs) [32])]⟩) ∧
    join [v] [32] = v ∧
    (∀ w ws, join (v :: w :: ws) [32] = v ++ [32] ++ join (w :: ws) [32]) ∧
    (∀ w0 rest, isWord w0 → (∀ gw ∈ rest, isGap gw.1 ∧ isWord gw.2) →
      fields (spaced w0 rest) = w0 :: rest.map (fun gw => gw.2)) ∧
    fields (ascii "#define FOO  a \t b") =
      [ascii "#define", ascii "FOO", ascii "a", ascii "b"] ∧
    join [ascii "a", ascii "b"] [32] = ascii "a b" := by
  refine ⟨fun outName outValue h => step_define ord readFile p st d f0 name v vs _ _ hd hf h,
    ?_, join_single v [32], fun w ws => join_cons_cons v w [32] ws,
    fun w0 rest hw h => fields_spaced w0 rest hw h, by decide, by decide⟩
  intro hdef hempty
  rw [step_define_default ord readFile p st d f0 name v vs hdef hd hf]
  simp only [hempty, pick_nil, applyDefines_nil, setDefine]

/-- Witness for C16: the line `#define FOO  a \t b`, and the same words
separated by two spaces, by a space, a tab and a space. -/
theorem define_line_parsed_witness :
    step storedOrder noFiles (New []) ⟨[], [], 0, []⟩ (ascii "#define FOO  a \t b") =
      .ok ⟨[(ascii "FOO", ascii "a b")], [], 1, [.define (ascii "FOO") (ascii "a b")]⟩ ∧
    fields (spaced (ascii "#define")
        [(ascii " ", ascii "FOO"), (ascii "  ", ascii "a"), (ascii " \t ", ascii "b")]) =
      [ascii "#define", ascii "FOO", ascii "a", ascii "b"] :=
  ⟨(define_line_parsed storedOrder noFiles (New []) ⟨[], [], 0, []⟩
      (ascii "#define FOO  a \t b") (ascii "#define") (ascii "FOO") (ascii "a") [ascii "b"]
      (by decide) (by decide)).2.1 rfl rfl,
   (define_line_parsed storedOrder noFiles (New []) ⟨[], [], 0, []⟩
      (ascii "#define FOO  a \t b") (ascii "#define") (ascii "FOO") (ascii "a") [ascii "b"]
      (by decide) (by decide)).2.2.2.2.1 (ascii "#define")
      [(ascii " ", ascii "FOO"), (ascii "  ", ascii "a"), (ascii " \t ", ascii "b")]
      (by decide) (by decide)⟩

/-! ## C17: the invariant of the macro table -/

/-- The bytes of a rune after its first byte are continuation bytes. -/
theorem decodeRune_rest (b : Nat) (bs : List Nat) :
    ∀ x ∈ bs.take ((decodeRune (b :: bs)).2 - 1), 0x80 ≤ x := by
  by_cases h1 : b < 0x80
  · simp [decodeRune, h1]
  by_cases h2 : b < 0xC2 ∨ 0xF5 ≤ b
  · simp [decodeRune, h1, h2]
  simp only [decodeRune, h1, h2, if_false]
  generalize (if b < 0xE0 then 2 else if b < 0xF0 then 3 else 4) = sz
  have hlo : 0x80 ≤ (if b = 0xE0 then 0xA0 else if b = 0xF0 then 0x90 else 0x80) := by
    split_ifs <;> omega
  generalize (if b = 0xE0 then 0xA0 else if b = 0xF0 then 0x90 else 0x80) = lo at hlo
  generalize (if b = 0xED then 0x9F else if b = 0xF4 then 0x8F else 0xBF) = hi
  rcases bs with _ | ⟨b1, _ | ⟨b2, _ | ⟨b3, bs3⟩⟩⟩
  · simp
  all_goals
    simp only []
    split_ifs
    all_goals simp
    all_goals omega

theorem asciiSpace_lt (b : Nat) (h : asciiSpace b = true) : b < 0x80 := by
  simp [asciiSpace] at h
  omega

theorem isSpace_of_asciiSpace (b : Nat) (h : asciiSpace b = true) : isSpace b = true := by
  simp [asciiSpace] at h
  simp [isSpace]
  omega

/-- Every field is non-empty and holds no white-space byte. -/
theorem fieldsFrom_good :
    ∀ (s : List Nat) (skip : Nat) (sp : Bool) (cur : List Nat),
      (∀ x ∈ s.take skip, 0x80 ≤ x) → (∀ x ∈ cur, asciiSpace x = false) →
      ∀ f ∈ fieldsFrom skip sp cur s, goodName f := by
  intro s
  induction s with
  | nil =>
    intro skip sp cur _ hcur f hf
    by_cases hc : cur = []
    · simp [fieldsFrom, hc] at hf
    · simp [fieldsFrom, hc] at hf
      subst hf
      exact ⟨hc, hcur⟩
  | cons b bs ih =>
    intro skip sp cur hskip hcur f hf
    cases skip with
    | zero =>
      have hrest : ∀ x ∈ bs.take ((if 0x80 ≤ b then decodeRune (b :: bs) else (b, 1)).2 - 1),
          0x80 ≤ x := by
        split_ifs
        · exact decodeRune_rest b bs
        · simp
      have hbyte : isSpace (if 0x80 ≤ b then decodeRune (b :: bs) else (b, 1)).1 = false →
          asciiSpace b = false := by
        intro h1
        by_cases h80 : 0x80 ≤ b
        · cases ha : asciiSpace b with
          | false => rfl
          | true => exact absurd (asciiSpace_lt b ha) (Nat.not_lt.mpr h80)
        · simp only [h80, if_false] at h1
          cases ha : asciiSpace b with
          | false => rfl
          | true =>
            rw [isSpace_of_asciiSpace b ha] at h1
            cases h1
      simp only [fieldsFrom] at hf
      generalize (if 0x80 ≤ b then decodeRune (b :: bs) else (b, 1)) = rs at hf hrest hbyte
      by_cases hs : isSpace rs.1 = true
      · simp only [hs, if_true] at hf
        by_cases hc : cur = []
        · simp only [hc, if_true] at hf
          exact ih _ true [] hrest (by simp) f hf
        · simp only [hc, if_false] at hf
          rcases List.mem_cons.mp hf with hf | hf
          · subst hf
            exact ⟨hc, hcur⟩
          · exact ih _ true [] hrest (by simp) f hf
      · simp only [hs, if_false] at hf
        refine ih _ false (cur ++ [b]) hrest ?_ f hf
        intro x hx
        rcases List.mem_append.mp hx with hx | hx
        · exact hcur x hx
        · have hxb : x = b := by simpa using hx
          subst hxb
          exact hbyte (by simpa using hs)
    | succ k =>
      have hb : 0x80 ≤ b := hskip b (by simp)
      have hk : ∀ x ∈ bs.take k, 0x80 ≤ x := fun x hx => hskip x (by simp [hx])
      simp only [fieldsFrom] at hf
      cases sp with
      | true => exact ih k true cur hk hcur f (by simpa using hf)
      | false =>
        refine ih k false (cur ++ [b]) hk ?_ f (by simpa using hf)
        intro x hx
        rcases List.mem_append.mp hx with hx | hx
        · exact hcur x hx
        · have hxb : x = b := by simpa using hx
          subst hxb
          cases ha : asciiSpace x with
          | false => rfl
          | true => exact absurd (asciiSpace_lt x ha) (Nat.not_lt.mpr hb)

theorem fields_good (s : List Nat) : ∀ f ∈ fields s, goodName f :=
  fieldsFrom_good s 0 false [] (by simp) (by simp)

/-- The width of a rune is at least 1 and at most the bytes at hand. -/
theorem decodeRune_width (b : Nat) (bs : List Nat) :
    1 ≤ (decodeRune (b :: bs)).2 ∧ (decodeRune (b :: bs)).2 ≤ bs.length + 1 := by
  by_cases h1 : b < 0x80
  · simp [decodeRune, h1]
  by_cases h2 : b < 0xC2 ∨ 0xF5 ≤ b
  · simp [decodeRune, h1, h2]
  simp only [decodeRune, h1, h2, if_false]
  generalize (if b < 0xE0 then 2 else if b < 0xF0 then 3 else 4) = sz
  generalize (if b = 0xE0 then 0xA0 else if b = 0xF0 then 0x90 else 0x80) = lo
  generalize (if b = 0xED then 0x9F else if b = 0xF4 then 0x8F else 0xBF) = hi
  rcases bs with _ | ⟨b1, _ | ⟨b2, _ | ⟨b3, bs3⟩⟩⟩
  · simp
  all_goals
    simp only []
    split_ifs
    all_goals simp

/-- Bytes behind a rune have no influence on it. -/
theorem decodeRune_stable (b : Nat) (u s : List Nat)
    (hk : (decodeRune (b :: (u ++ s))).2 - 1 ≤ u.length) :
    decodeRune (b :: u) = decodeRune (b :: (u ++ s)) := by
  revert hk
  by_cases h1 : b < 0x80
  · simp [decodeRune, h1]
  by_cases h2 : b < 0xC2 ∨ 0xF5 ≤ b
  · simp [decodeRune, h1, h2]
  simp only [decodeRune, h1, h2, if_false]
  have hsz : 2 ≤ (if b < 0xE0 then 2 else if b < 0xF0 then 3 else 4) ∧
      (if b < 0xE0 then 2 else if b < 0xF0 then 3 else 4) ≤ 4 := by
    split_ifs <;> omega
  generalize (if b < 0xE0 then 2 else if b < 0xF0 then 3 else 4) = sz at hsz
  generalize (if b = 0xE0 then 0xA0 else if b = 0xF0 then 0x90 else 0x80) = lo
  generalize (if b = 0xED then 0x9F else if b = 0xF4 then 0x8F else 0xBF) = hi
  rcases u with _ | ⟨b1, _ | ⟨b2, _ | ⟨b3, u3⟩⟩⟩
  · rcases s with _ | ⟨c1, _ | ⟨c2, _ | ⟨c3, s3⟩⟩⟩
    · simp
    all_goals
      simp only [List.nil_append, List.length_nil, List.length_cons]
      split_ifs
      all_goals simp
  · rcases s with _ | ⟨c1, _ | ⟨c2, s2⟩⟩
    · simp
    all_goals
      simp only [List.cons_append, List.nil_append, List.length_nil, List.length_cons]
      split_ifs
      all_goals simp
      all_goals omega
  · rcases s with _ | ⟨c1, s1⟩
    · simp
    all_goals
      simp only [List.cons_append, List.nil_append, List.length_nil, List.length_cons]
      split_ifs
      all_goals simp
      all_goals omega
  · simp only [List.cons_append, List.length_cons, List.length_append]
    split_ifs
    all_goals simp
    all_goals omega

theorem runeAt_width (s : List Nat) (hs : s ≠ []) : 1 ≤ (runeAt s).2 ∧ (runeAt s).2 ≤ s.length := by
  obtain ⟨b, bs, rfl⟩ := List.exists_cons_of_ne_nil hs
  simp only [runeAt]
  split_ifs
  · simpa using decodeRune_width b bs
  · simp

theorem runeAt_stable (cur s : List Nat) (hne : cur ≠ [])
    (hk : (runeAt (cur ++ s)).2 ≤ cur.length) : runeAt cur = runeAt (cur ++ s) := by
  obtain ⟨b, u, rfl⟩ := List.exists_cons_of_ne_nil hne
  by_cases h : 0x80 ≤ b
  · have e1 : runeAt (b :: u) = decodeRune (b :: u) := by simp only [runeAt, h, if_true]
    have e2 : runeAt (b :: u ++ s) = decodeRune (b :: (u ++ s)) := by
      simp only [List.cons_append, runeAt, h, if_true]
    rw [e2] at hk
    rw [e1, e2]
    apply decodeRune_stable b u s
    simp only [List.length_cons] at hk
    omega
  · simp only [List.cons_append, runeAt, h, if_false]

theorem fieldsFrom_skip_space :
    ∀ (s : List Nat) (k : Nat) (cur : List Nat),
      fieldsFrom k true cur s = fieldsFrom 0 false cur (s.drop k) := by
  intro s
  induction s with
  | nil => intro k cur; cases k <;> rfl
  | cons b bs ih =>
    intro k cur
    cases k with
    | zero => exact fieldsFrom_zero_flag true cur (b :: bs)
    | succ k => simpa [fieldsFrom] using ih k cur

theorem fieldsFrom_skip_word :
    ∀ (s : List Nat) (k : Nat) (cur : List Nat),
      fieldsFrom k false cur s = fieldsFrom 0 false (cur ++ s.take k) (s.drop k) := by
  intro s
  induction s with
  | nil => intro k cur; cases k <;> simp [fieldsFrom]
  | cons b bs ih =>
    intro k cur
    cases k with
    | zero => simp
    | succ k =>
      simp only [fieldsFrom, Bool.false_eq_true, if_false, List.take_succ_cons,
        List.drop_succ_cons]
      rw [ih k (cur ++ [b])]
      simp

/-- One rune of the loop of `FieldsFunc`: a white-space rune closes the open
field, any other rune is added to it. -/
theorem fieldsFrom_rune (sp : Bool) (cur s : List Nat) (hs : s ≠ []) :
    fieldsFrom 0 sp cur s =
      if isSpace (runeAt s).1 then
        if cur = [] then fieldsFrom 0 false [] (s.drop (runeAt s).2)
        else cur :: fieldsFrom 0 false [] (s.drop (runeAt s).2)
      else fieldsFrom 0 false (cur ++ s.take (runeAt s).2) (s.drop (runeAt s).2) := by
  obtain ⟨b, bs, rfl⟩ := List.exists_cons_of_ne_nil hs
  have hw := (runeAt_width (b :: bs) (by simp)).1
  obtain ⟨k, hk⟩ : ∃ k, (runeAt (b :: bs)).2 = k + 1 := ⟨(runeAt (b :: bs)).2 - 1, by omega⟩
  have e : fieldsFrom 0 sp cur (b :: bs) =
      if isSpace (runeAt (b :: bs)).1 then
        if cur = [] then fieldsFrom ((runeAt (b :: bs)).2 - 1) true [] bs
        else cur :: fieldsFrom ((runeAt (b :: bs)).2 - 1) true [] bs
      else fieldsFrom ((runeAt (b :: bs)).2 - 1) false (cur ++ [b]) bs := rfl
  rw [e, hk]
  simp only [Nat.add_sub_cancel]
  rw [fieldsFrom_skip_space bs k [], fieldsFrom_skip_word bs k (cur ++ [b])]
  simp

theorem cover_extend (s : List Nat) (hs : s ≠ []) (hsp : isSpace (runeAt s).1 = false) :
    ∀ cur, Cover s cur → Cover (s.drop (runeAt s).2) (cur ++ s.take (runeAt s).2) := by
  have hw := runeAt_width s hs
  have hlen : (s.take (runeAt s).2).length = (runeAt s).2 := by
    rw [List.length_take]
    omega
  intro cur h
  induction h with
  | nil =>
    have hne : s.take (runeAt s).2 ≠ [] := by
      intro h0
      rw [h0] at hlen
      simp at hlen
      omega
    rw [List.nil_append]
    refine Cover.rune _ (runeAt s).1 (runeAt s).2 hne
      (by rw [List.take_append_drop]) hsp hw.1 (by omega) ?_
    have : (s.take (runeAt s).2).drop (runeAt s).2 = [] := by
      apply List.drop_eq_nil_of_le
      omega
    rw [this]
    exact Cover.nil
  | rune cur r k hne hr hnsp hk1 hk2 _ ih =>
    refine Cover.rune _ r k (by simp [hne]) ?_ hnsp hk1 (by simp; omega) ?_
    · rw [List.append_assoc, List.take_append_drop]
      exact hr
    · have : (cur ++ s.take (runeAt s).2).drop k = cur.drop k ++ s.take (runeAt s).2 := by
        rw [List.drop_append_of_le_length hk2]
      rw [this]
      exact ih

theorem cover_cut (cur s : List Nat) (h : Cover s cur) : Cover [] cur := by
  induction h with
  | nil => exact Cover.nil
  | rune cur r k hne hr hnsp hk1 hk2 _ ih =>
    have hst := runeAt_stable cur s hne (by rw [hr]; exact hk2)
    exact Cover.rune cur r k hne (by rw [List.append_nil, hst, hr]) hnsp hk1 hk2 ih

/-- A text of whole runes without white space is one field. -/
theorem fieldsFrom_cover :
    ∀ n (f : List Nat), f.length ≤ n → Cover [] f → f ≠ [] →
      ∀ cur, fieldsFrom 0 false cur f = [cur ++ f] := by
  intro n
  induction n with
  | zero =>
    intro f hl _ hne
    exact absurd (List.length_eq_zero.mp (Nat.le_zero.mp hl)) hne
  | succ n ih =>
    intro f hl hc hne cur
    cases hc with
    | nil => exact absurd rfl hne
    | rune _ r k _ hr hnsp hk1 hk2 hrest =>
      rw [List.append_nil] at hr
      rw [fieldsFrom_rune false cur f hne, hr]
      simp only [hnsp, Bool.false_eq_true, if_false]
      by_cases hd : f.drop k = []
      · have ht : f.take k = f := by
          have := List.take_append_drop k f
          rw [hd, List.append_nil] at this
          exact this
        rw [hd, ht]
        simp [fieldsFrom, hne]
      · have hlen : (f.drop k).length ≤ n := by
          simp
          omega
        rw [ih (f.drop k) hlen hrest hd (cur ++ f.take k), List.append_assoc,
          List.take_append_drop]

/-- Every field consists of whole runes without white space. -/
theorem fieldsFrom_fields_cover :
    ∀ n (s : List Nat), s.length ≤ n → ∀ cur, Cover s cur →
      ∀ f ∈ fieldsFrom 0 false cur s, Cover [] f := by
  intro n
  induction n with
  | zero =>
    intro s hl cur hc f hf
    have : s = [] := List.length_eq_zero.mp (Nat.le_zero.mp hl)
    subst this
    by_cases h0 : cur = []
    · simp [fieldsFrom, h0] at hf
    · simp [fieldsFrom, h0] at hf
      subst hf
      exact hc
  | succ n ih =>
    intro s hl cur hc f hf
    by_cases hs : s = []
    · subst hs
      by_cases h0 : cur = []
      · simp [fieldsFrom, h0] at hf
      · simp [fieldsFrom, h0] at hf
        subst hf
        exact hc
    · have hw := runeAt_width s hs
      have hlen : (s.drop (runeAt s).2).length ≤ n := by
        simp
        omega
      rw [fieldsFrom_rune false cur s hs] at hf
      by_cases hsp : isSpace (runeAt s).1 = true
      · simp only [hsp, if_true] at hf
        by_cases h0 : cur = []
        · simp only [h0, if_true] at hf
          exact ih _ hlen [] Cover.nil f hf
        · simp only [h0, if_false] at hf
          rcases List.mem_cons.mp hf with hf | hf
          · subst hf
            exact cover_cut _ s hc
          · exact ih _ hlen [] Cover.nil f hf
      · simp only [hsp, if_false] at hf
        exact ih _ hlen _ (cover_extend s hs (by simpa using hsp) cur hc) f hf

/-- Every field of a text is, read on its own, one field: it holds no
white-space rune. -/
theorem fields_of_field (s f : List Nat) (hf : f ∈ fields s) : fields f = [f] := by
  have hc := fieldsFrom_fields_cover s.length s (Nat.le_refl _) [] Cover.nil f hf
  have hne := (fields_good s f hf).1
  simpa [fields] using fieldsFrom_cover f.length f (Nat.le_refl _) hc hne []

theorem goodValue_join (vs : List (List Nat)) :
    ∀ v, (∀ f ∈ v :: vs, goodName f) → goodValue (join (v :: vs) [32]) := by
  induction vs with
  | nil =>
    intro v h
    obtain ⟨hne, hall⟩ := h v (List.mem_cons_self _ _)
    rw [join_single]
    refine ⟨hne, fun hn => ?_, fun hh => ?_, fun hl => ?_⟩
    · have := hall nl hn
      simp [asciiSpace, nl] at this
    · have := hall 32 (List.mem_of_mem_head? hh)
      simp [asciiSpace] at this
    · have := hall 32 (List.mem_of_getLast?_eq_some hl)
      simp [asciiSpace] at this
  | cons w ws ih =>
    intro v h
    obtain ⟨hne, hall⟩ := h v (List.mem_cons_self _ _)
    obtain ⟨jne, jnl, _, jlast⟩ := ih w (fun f hf => h f (List.mem_cons_of_mem _ hf))
    rw [join_cons_cons]
    refine ⟨by simp [hne], fun hn => ?_, fun hh => ?_, fun hl => ?_⟩
    · rcases List.mem_append.mp hn with hn | hn
      · rcases List.mem_append.mp hn with hn | hn
        · have := hall nl hn
          simp [asciiSpace, nl] at this
        · simp [nl] at hn
      · exact jnl hn
    · obtain ⟨c, t, rfl⟩ := List.exists_cons_of_ne_nil hne
      simp only [List.cons_append, List.head?_cons, Option.some.injEq] at hh
      have := hall 32 (by simp [hh])
      simp [asciiSpace] at this
    · rw [List.getLast?_append_of_ne_nil _ jne] at hl
      exact jlast hl

theorem mem_replaceFrom (old new : List Nat) :
    ∀ (s : List Nat) (n x : Nat), x ∈ replaceFrom old new n s → x ∈ s ∨ x ∈ new := by
  intro s
  induction s with
  | nil => intro n x h; simp [replaceFrom] at h
  | cons c cs ih =>
    intro n x h
    cases n with
    | zero =>
      simp only [replaceFrom] at h
      split_ifs at h
      · rcases List.mem_append.mp h with h | h
        · exact Or.inr h
        · rcases ih _ x h with h | h
          · exact Or.inl (List.mem_cons_of_mem _ h)
          · exact Or.inr h
      · rcases List.mem_cons.mp h with h | h
        · exact Or.inl (h ▸ List.mem_cons_self _ _)
        · rcases ih _ x h with h | h
          · exact Or.inl (List.mem_cons_of_mem _ h)
          · exact Or.inr h
    | succ k =>
      simp only [replaceFrom] at h
      rcases ih k x h with h | h
      · exact Or.inl (List.mem_cons_of_mem _ h)
      · exact Or.inr h

/-- The end of a rewritten text is the end of the text or the end of the
replacement. -/
theorem replaceFrom_last (old new : List Nat) (hold : old ≠ []) (hnew : new ≠ []) :
    ∀ s : List Nat, s ≠ [] → replaceFrom old new 0 s ≠ [] ∧
      ((replaceFrom old new 0 s).getLast? = s.getLast? ∨
        (replaceFrom old new 0 s).getLast? = new.getLast?) := by
  suffices H : ∀ n, ∀ s : List Nat, s.length ≤ n → s ≠ [] →
      replaceFrom old new 0 s ≠ [] ∧
        ((replaceFrom old new 0 s).getLast? = s.getLast? ∨
          (replaceFrom old new 0 s).getLast? = new.getLast?) from
    fun s => H s.length s (Nat.le_refl _)
  intro n
  induction n with
  | zero =>
    intro s hs hne
    exact absurd (List.length_eq_zero.mp (Nat.le_zero.mp hs)) hne
  | succ n ih =>
    intro s hs hne
    obtain ⟨c, z, rfl⟩ := List.exists_cons_of_ne_nil hne
    have hlen : z.length ≤ n := by simpa using hs
    by_cases m : old <+: c :: z
    · obtain ⟨t, ht⟩ := m
      have htl : t.length ≤ n := by
        have := congrArg List.length ht
        have hk : 0 < old.length := List.length_pos.mpr hold
        simp at this
        omega
      rw [← ht, replaceFrom_match old new t hold]
      refine ⟨by simp [hnew], ?_⟩
      by_cases ht0 : t = []
      · subst ht0
        right
        simp [replaceFrom]
      · obtain ⟨hr, hl⟩ := ih t htl ht0
        rw [List.getLast?_append_of_ne_nil _ hr, List.getLast?_append_of_ne_nil _ ht0]
        exact hl
    · rw [replaceFrom_copy old new z c m]
      refine ⟨by simp, ?_⟩
      by_cases hz0 : z = []
      · subst hz0
        left
        simp [replaceFrom]
      · obtain ⟨hr, hl⟩ := ih z hlen hz0
        have e1 : (c :: replaceFrom old new 0 z).getLast? = (replaceFrom old new 0 z).getLast? := by
          rw [show c :: replaceFrom old new 0 z = [c] ++ replaceFrom old new 0 z from rfl,
            List.getLast?_append_of_ne_nil _ hr]
        have e2 : (c :: z).getLast? = z.getLast? := by
          rw [show c :: z = [c] ++ z from rfl, List.getLast?_append_of_ne_nil _ hz0]
        rw [e1, e2]
        exact hl

theorem replaceFrom_head (old new : List Nat) (hnew : new ≠ []) (s : List Nat) (hs : s ≠ []) :
    (replaceFrom old new 0 s).head? = s.head? ∨ (replaceFrom old new 0 s).head? = new.head? := by
  obtain ⟨c, z, rfl⟩ := List.exists_cons_of_ne_nil hs
  obtain ⟨d, w, rfl⟩ := List.exists_cons_of_ne_nil hnew
  simp only [replaceFrom]
  split_ifs
  · right; rfl
  · left; rfl

/-- Replacing a non-empty name by a well-formed value keeps a value well
formed. -/
theorem goodValue_replace (s old new : List Nat) (hold : old ≠ []) (hs : goodValue s)
    (hnew : goodValue new) : goodValue (replace s old new) := by
  obtain ⟨sne, snl, shead, slast⟩ := hs
  obtain ⟨nne, nnl, nhead, nlast⟩ := hnew
  simp only [replace, hold, if_false]
  obtain ⟨rne, rlast⟩ := replaceFrom_last old new hold nne s sne
  refine ⟨rne, fun hn => ?_, fun hh => ?_, fun hl => ?_⟩
  · rcases mem_replaceFrom old new s 0 nl hn with h | h
    · exact snl h
    · exact nnl h
  · rcases replaceFrom_head old new nne s sne with h | h
    · exact shead (h ▸ hh)
    · exact nhead (h ▸ hh)
  · rcases rlast with h | h
    · exact slast (h ▸ hl)
    · exact nlast (h ▸ hl)

theorem goodValue_applyDefines (entries : Defines) (h : goodTable entries) :
    ∀ text, goodValue text → goodValue (applyDefines entries text) := by
  induction entries with
  | nil => intro text ht; exact ht
  | cons kv rest ih =>
    intro text ht
    have hkv := h kv (List.mem_cons_self _ _)
    exact ih (fun x hx => h x (List.mem_cons_of_mem _ hx)) _
      (goodValue_replace text kv.1 kv.2 hkv.1.1 ht hkv.2)

theorem mem_setDefine_cases (k v : List Nat) (m : Defines) (x : List Nat × List Nat)
    (h : x ∈ setDefine k v m) : x = (k, v) ∨ x ∈ m := by
  induction m with
  | nil => simpa [setDefine] using h
  | cons kv m ih =>
    simp only [setDefine] at h
    split_ifs at h
    · rcases List.mem_cons.mp h with h | h
      · exact Or.inl h
      · exact Or.inr (List.mem_cons_of_mem _ h)
    · rcases List.mem_cons.mp h with h | h
      · exact Or.inr (h ▸ List.mem_cons_self _ _)
      · rcases ih h with h | h
        · exact Or.inl h
        · exact Or.inr (List.mem_cons_of_mem _ h)

/-- One line keeps the invariant of the table, with the default Define hook. -/
theorem step_goodTable (ord : RangeOrder) (rf : IncludeFn) (p : Preprocessor)
    (hdef : p.Define = none) (st st1 : LoopState) (b : List Nat)
    (hst : goodTable st.defines) (h : step ord rf p st b = .ok st1) :
    goodTable st1.defines := by
  by_cases hd : hasPrefix b bufDefine = true
  · match hf : fields b with
    | f0 :: name :: v :: vs =>
      rw [step_define_default ord rf p st b f0 name v vs hdef hd hf] at h
      injection h with h
      subst h
      intro x hx
      rcases mem_setDefine_cases _ _ _ x hx with hx | hx
      · subst hx
        have hfs : ∀ f ∈ fields b, goodName f := fields_good b
        rw [hf] at hfs
        refine ⟨hfs name (by simp), ?_⟩
        apply goodValue_applyDefines
        · intro y hy
          exact hst y ((ord.perm _ _).subset hy)
        · exact goodValue_join vs v (fun f hf1 => hfs f (by
            rcases List.mem_cons.mp hf1 with h1 | h1
            · simp [h1]
            · simp [h1]))
      · exact hst x hx
    | [] => simp [step, hd, stepDefine, hf] at h
    | [_] => simp [step, hd, stepDefine, hf] at h
    | [_, _] => simp [step, hd, stepDefine, hf] at h
  · have hd0 := hasPrefix_false_of_ne_true _ _ hd
    by_cases hi : hasPrefix b bufInclude = true
    · simp only [step, hd0, hi, if_true, Bool.false_eq_true, if_false] at h
      unfold stepInclude at h
      split at h
      · split at h
        · cases h
        · injection h with h
          subst h
          exact hst
      · cases h
    · have hi0 := hasPrefix_false_of_ne_true _ _ hi
      rw [step_plain ord rf p st b ⟨hd0, hi0⟩] at h
      injection h with h
      subst h
      exact hst

theorem run_goodTable (ord : RangeOrder) (rf : IncludeFn) (p : Preprocessor)
    (hdef : p.Define = none) (ls : List (List Nat)) :
    ∀ st st1, goodTable st.defines → run ord rf p st ls = .ok st1 → goodTable st1.defines := by
  induction ls with
  | nil =>
    intro st st1 hst h
    simp only [run] at h
    injection h with h
    subst h
    exact hst
  | cons l ls ih =>
    intro st st1 hst h
    simp only [run] at h
    cases hs : step ord rf p st l with
    | error e => simp [hs] at h
    | ok st2 =>
      simp only [hs] at h
      exact ih st2 st1 (step_goodTable ord rf p hdef st st2 l hst hs) h

/-- With the default Define hook every name in the table after a line was in
the table before or is a field of the line. -/
theorem step_names (ord : RangeOrder) (rf : IncludeFn) (p : Preprocessor)
    (hdef : p.Define = none) (st st1 : LoopState) (b : List Nat)
    (h : step ord rf p st b = .ok st1) :
    ∀ kv ∈ st1.defines, kv ∈ st.defines ∨ kv.1 ∈ fields b := by
  by_cases hd : hasPrefix b bufDefine = true
  · match hf : fields b with
    | f0 :: name :: v :: vs =>
      rw [step_define_default ord rf p st b f0 name v vs hdef hd hf] at h
      injection h with h
      subst h
      intro x hx
      rcases mem_setDefine_cases _ _ _ x hx with hx | hx
      · subst hx
        right
        simp
      · exact Or.inl hx
    | [] => simp [step, hd, stepDefine, hf] at h
    | [_] => simp [step, hd, stepDefine, hf] at h
    | [_, _] => simp [step, hd, stepDefine, hf] at h
  · have hd0 := hasPrefix_false_of_ne_true _ _ hd
    by_cases hi : hasPrefix b bufInclude = true
    · simp only [step, hd0, hi, if_true, Bool.false_eq_true, if_false] at h
      unfold stepInclude at h
      split at h
      · split at h
        · cases h
        · injection h with h
          subst h
          exact fun kv hkv => Or.inl hkv
      · cases h
    · have hi0 := hasPrefix_false_of_ne_true _ _ hi
      rw [step_plain ord rf p st b ⟨hd0, hi0⟩] at h
      injection h with h
      subst h
      exact fun kv hkv => Or.inl hkv

theorem run_names (ord : RangeOrder) (rf : IncludeFn) (p : Preprocessor)
    (hdef : p.Define = none) (ls : List (List Nat)) :
    ∀ st st1, run ord rf p st ls = .ok st1 →
      ∀ kv ∈ st1.defines, kv ∈ st.defines ∨ ∃ l ∈ ls, kv.1 ∈ fields l := by
  induction ls with
  | nil =>
    intro st st1 h
    simp only [run] at h
    injection h with h
    subst h
    exact fun kv hkv => Or.inl hkv
  | cons l ls ih =>
    intro st st1 h kv hkv
    simp only [run] at h
    cases hs : step ord rf p st l with
    | error e => simp [hs] at h
    | ok st2 =>
      simp only [hs] at h
      rcases ih st2 st1 h kv hkv with h2 | ⟨x, hx, hxf⟩
      · rcases step_names ord rf p hdef st st2 l hs kv h2 with h3 | h3
        · exact Or.inl h3
        · exact Or.inr ⟨l, List.mem_cons_self _ _, h3⟩
      · exact Or.inr ⟨x, List.mem_cons_of_mem _ hx, hxf⟩

/-- C17: with the default Define hook, after any number of processed lines
every macro name in the table is non-empty and contains no white space (no
white-space byte: space, tab, newline, vertical tab, form feed, carriage
return; and, read as UTF-8, no white-space rune: the name is one field for
`bytes.Fields`), and every macro value is non-empty, contains no newline, and
has no leading or trailing space. -/
theorem macro_table_invariant (ord : RangeOrder) (readFile : IncludeFn) (p : Preprocessor)
    (hdef : p.Define = none) (hempty : p.defines = []) (lines : List (List Nat))
    (st : LoopState) (hrun : run ord readFile p (initState p) lines = .ok st) :
    ∀ kv ∈ st.defines,
      (kv.1 ≠ [] ∧ (∀ b ∈ kv.1, asciiSpace b = false) ∧ fields kv.1 = [kv.1]) ∧
      (kv.2 ≠ [] ∧ nl ∉ kv.2 ∧ kv.2.head? ≠ some 32 ∧ kv.2.getLast? ≠ some 32) := by
  intro kv hkv
  have hgood := run_goodTable ord readFile p hdef lines (initState p) st
    (by simp [initState, hempty, goodTable]) hrun kv hkv
  refine ⟨⟨hgood.1.1, hgood.1.2, ?_⟩, hgood.2⟩
  rcases run_names ord readFile p hdef lines (initState p) st hrun kv hkv with h | ⟨l, _, hl⟩
  · simp [initState, hempty] at h
  · exact fields_of_field l kv.1 hl

/-- Witness for C17: the defines of the test "define uses another defined
value" and a define with a value of several fields. -/
theorem macro_table_invariant_witness :
    tableInvariant [(ascii "FOO_BITS", ascii "8"), (ascii "BAR_BITS", ascii "8"),
      (ascii "FOO", ascii "a b")] :=
  macro_table_invariant storedOrder noFiles (New []) rfl rfl
    [ascii "#define FOO_BITS 8", ascii "#define BAR_BITS FOO_BITS", ascii "foo : BAR_BITS;",
      ascii "#define FOO  a \t b "]
    ⟨[(ascii "FOO_BITS", ascii "8"), (ascii "BAR_BITS", ascii "8"), (ascii "FOO", ascii "a b")],
      ascii "foo : 8;\n", 4,
      [.define (ascii "FOO_BITS") (ascii "8"), .define (ascii "BAR_BITS") (ascii "8"),
        .define (ascii "FOO") (ascii "a b")]⟩ rfl

/-! ## C18: the lines of the output -/

theorem mem_dropCR (cur : List Nat) (x : Nat) (h : x ∈ dropCR cur) : x ∈ cur := by
  unfold dropCR at h
  split_ifs at h
  · exact List.mem_of_mem_dropLast h
  · exact h

/-- No line delivered by the scanner holds a newline. -/
theorem scanFrom_no_nl (inp : List Nat) :
    ∀ cur, nl ∉ cur → ∀ l ∈ (scanFrom cur inp).1, nl ∉ l := by
  induction inp with
  | nil =>
    intro cur hcur l hl
    simp only [scanFrom] at hl
    split_ifs at hl
    · simp at hl
    · simp at hl
    · simp only [List.mem_singleton] at hl
      subst hl
      exact fun h => hcur (mem_dropCR cur nl h)
  | cons b rest ih =>
    intro cur hcur l hl
    simp only [scanFrom] at hl
    split_ifs at hl with h1 h2
    · simp at hl
    · rcases List.mem_cons.mp hl with hl | hl
      · subst hl
        exact fun h => hcur (mem_dropCR cur nl h)
      · exact ih [] (by simp) l hl
    · exact ih (cur ++ [b]) (by simp [hcur, Ne.symm h2]) l hl

theorem no_nl_applyDefines (entries : Defines) (h : goodTable entries) :
    ∀ text, nl ∉ text → nl ∉ applyDefines entries text := by
  induction entries with
  | nil => intro text ht; exact ht
  | cons kv rest ih =>
    intro text ht
    have hkv := h kv (List.mem_cons_self _ _)
    apply ih (fun x hx => h x (List.mem_cons_of_mem _ hx))
    simp only [replace, hkv.1.1, if_false]
    intro hn
    rcases mem_replaceFrom kv.1 kv.2 text 0 nl hn with h1 | h1
    · exact ht h1
    · exact hkv.2.2.1 h1

/-- Lines without includes, with the default Define hook: the output added is
empty or ends with a newline and has one newline for every line that is not a
define. -/
theorem run_line_count (ord : RangeOrder) (rf : IncludeFn) (p : Preprocessor)
    (hdef : p.Define = none) (ls : List (List Nat)) :
    ∀ st st1, goodTable st.defines →
      (∀ l ∈ ls, nl ∉ l ∧ hasPrefix l bufInclude = false) →
      run ord rf p st ls = .ok st1 →
      ∃ out, st1.src = st.src ++ out ∧ (out = [] ∨ out.getLast? = some nl) ∧
        out.count nl = (ls.filter (fun l => !hasPrefix l bufDefine)).length := by
  induction ls with
  | nil =>
    intro st st1 _ _ h
    simp only [run] at h
    injection h with h
    subst h
    exact ⟨[], by simp, Or.inl rfl, by simp⟩
  | cons l ls ih =>
    intro st st1 hst hls h
    have hl := hls l (List.mem_cons_self _ _)
    have hrest : ∀ x ∈ ls, nl ∉ x ∧ hasPrefix x bufInclude = false :=
      fun x hx => hls x (List.mem_cons_of_mem _ hx)
    simp only [run] at h
    cases hs : step ord rf p st l with
    | error e => simp [hs] at h
    | ok st2 =>
      simp only [hs] at h
      have hst2 := step_goodTable ord rf p hdef st st2 l hst hs
      obtain ⟨out, hsrc, hend, hcount⟩ := ih st2 st1 hst2 hrest h
      by_cases hd : hasPrefix l bufDefine = true
      · have hsame : st2.src = st.src := by
          match hf : fields l with
          | f0 :: name :: v :: vs =>
            rw [step_define_default ord rf p st l f0 name v vs hdef hd hf] at hs
            injection hs with hs
            subst hs
            rfl
          | [] => simp [step, hd, stepDefine, hf] at hs
          | [_] => simp [step, hd, stepDefine, hf] at hs
          | [_, _] => simp [step, hd, stepDefine, hf] at hs
        refine ⟨out, by rw [hsrc, hsame], hend, ?_⟩
        simp [List.filter, hd, hcount]
      · have hd0 := hasPrefix_false_of_ne_true _ _ hd
        rw [step_plain ord rf p st l ⟨hd0, hl.2⟩] at hs
        injection hs with hs
        subst hs
        have hno : nl ∉ applyDefines (ord.pick st.ranges st.defines) l :=
          no_nl_applyDefines _ (fun y hy => hst y ((ord.perm _ _).subset hy)) l hl.1
        refine ⟨applyDefines (ord.pick st.ranges st.defines) l ++ [nl] ++ out, ?_, ?_, ?_⟩
        · rw [hsrc]
          simp [stepPlain]
        · right
          rcases hend with h0 | h0
          · subst h0
            simp
          · have hne : out ≠ [] := by
              rintro rfl
              simp at h0
            rw [List.getLast?_append_of_ne_nil _ hne]
            exact h0
        · simp [List.filter, hd0, hcount, List.count_eq_zero_of_not_mem hno, Nat.add_comm]

/-- C18: with the default Define hook, for every input with no line beginning
with `#include` on which `Process` succeeds, the output is empty or ends with a
newline, and the number of newline bytes in the output equals the number of
input lines that do not begin with `#define`. -/
theorem line_structure_preserved (ord : RangeOrder) (readFile : IncludeFn)
    (input out : List Nat)
    (hinc : ∀ l ∈ (scanLines input).1, hasPrefix l bufInclude = false)
    (hok : Process ord readFile (New input) = ⟨out, none⟩) :
    (out = [] ∨ out.getLast? = some nl) ∧
    out.count nl = ((scanLines input).1.filter (fun l => !hasPrefix l bufDefine)).length := by
  unfold Process at hok
  cases hr : run ord readFile (New input) (initState (New input)) (scanLines (New input).s).1 with
  | error e => simp [hr] at hok
  | ok st =>
    simp only [hr] at hok
    cases hs : (scanLines (New input).s).2 with
    | some e => simp [hs] at hok
    | none =>
      simp only [hs] at hok
      have hout : st.src = out := by
        injection hok
      obtain ⟨o, hsrc, hend, hcount⟩ := run_line_count ord readFile (New input) rfl _
        (initState (New input)) st (by simp [initState, New, goodTable])
        (fun l hl => ⟨scanFrom_no_nl input [] (by simp) l hl, hinc l hl⟩) hr
      have ho : o = out := by
        rw [← hout, hsrc]
        simp [initState]
      subst ho
      exact ⟨hend, hcount⟩

/-- Witness for C18, on the input of the test "multiple defines". -/
theorem line_structure_preserved_witness :
    (ascii "\nfoo : 8;\nbar : 16;\n" = [] ∨
      (ascii "\nfoo : 8;\nbar : 16;\n").getLast? = some nl) ∧
    (ascii "\nfoo : 8;\nbar : 16;\n").count nl =
      ((scanLines (ascii
        "\n#define FOO_BITS 8\n#define BAR_BITS 16\nfoo : FOO_BITS;\nbar : BAR_BITS;\n")).1.filter
        (fun l => !hasPrefix l bufDefine)).length :=
  line_structure_preserved storedOrder noFiles
    (ascii "\n#define FOO_BITS 8\n#define BAR_BITS 16\nfoo : FOO_BITS;\nbar : BAR_BITS;\n")
    (ascii "\nfoo : 8;\nbar : 16;\n") (by decide) (by decide)

/-! ## C19: the output of a longer input -/

theorem scanFrom_cons (cur : List Nat) (b : Nat) (rest : List Nat) :
    scanFrom cur (b :: rest) =
      if maxScanTokenSize ≤ cur.length then ([], some .tooLong)
      else if b = nl then ((dropCR cur) :: (scanFrom [] rest).1, (scanFrom [] rest).2)
      else scanFrom (cur ++ [b]) rest := rfl

/-- The scanner on an input cut after a newline: the lines of the first part,
then the lines of the second part. -/
theorem scanFrom_append (B : List Nat) :
    ∀ A cur, (A = [] → cur = []) → (A ≠ [] → A.getLast? = some nl) →
      scanFrom cur (A ++ B) =
        match (scanFrom cur A).2 with
        | some e => ((scanFrom cur A).1, some e)
        | none => ((scanFrom cur A).1 ++ (scanFrom [] B).1, (scanFrom [] B).2) := by
  intro A
  induction A with
  | nil =>
    intro cur h0 _
    rw [h0 rfl]
    simp [scanFrom]
  | cons b rest ih =>
    intro cur _ hlast
    have hl : (b :: rest).getLast? = some nl := hlast (by simp)
    have hrest : rest ≠ [] → rest.getLast? = some nl := by
      intro hne
      rw [show b :: rest = [b] ++ rest from rfl, List.getLast?_append_of_ne_nil _ hne] at hl
      exact hl
    rw [List.cons_append, scanFrom_cons cur b (rest ++ B), scanFrom_cons cur b rest]
    by_cases hlen : maxScanTokenSize ≤ cur.length
    · simp only [hlen, if_true]
    · simp only [hlen, if_false]
      by_cases hb : b = nl
      · simp only [hb, if_true]
        have := ih [] (fun _ => rfl) hrest
        cases h2 : (scanFrom [] rest).2 with
        | some e =>
          rw [h2] at this
          simp only [this]
        | none =>
          rw [h2] at this
          simp only [this, List.cons_append]
      · have hne : rest ≠ [] := by
          rintro rfl
          simp at hl
          exact hb hl
        simp only [hb, if_false]
        exact ih (cur ++ [b]) (fun h => absurd h hne) hrest

theorem step_withInput (ord : RangeOrder) (rf : IncludeFn) (p : Preprocessor) (r : List Nat)
    (st : LoopState) (b : List Nat) :
    step ord rf (withInput p r) st b = step ord rf p st b := rfl

theorem run_withInput (ord : RangeOrder) (rf : IncludeFn) (p : Preprocessor) (r : List Nat)
    (ls : List (List Nat)) :
    ∀ st, run ord rf (withInput p r) st ls = run ord rf p st ls := by
  induction ls with
  | nil => intro st; rfl
  | cons l ls ih =>
    intro st
    simp only [run, step_withInput]
    cases step ord rf p st l with
    | error e => rfl
    | ok st1 => exact ih st1

/-- The output only grows while the loop runs. -/
theorem run_src_grows (ord : RangeOrder) (rf : IncludeFn) (p : Preprocessor)
    (ls : List (List Nat)) :
    ∀ st st1, run ord rf p st ls = .ok st1 → st.src <+: st1.src := by
  intro st st1 h
  have hst : st = addSrc st.src ⟨st.defines, [], st.ranges, st.calls⟩ := by
    simp [addSrc]
  rw [hst, run_addSrc] at h
  cases hr : run ord rf p ⟨st.defines, [], st.ranges, st.calls⟩ ls with
  | error e => simp [hr, Except.map] at h
  | ok st2 =>
    simp only [hr, Except.map] at h
    injection h with h
    rw [← h]
    exact List.prefix_append _ _

/-- C19 (as stated, refuted): with `A` the three lines `#define A B`,
`#define B c`, `A` and `B` the line `x`, one run on `A ++ B` returns `c\nx\n`
and one run on `A` alone returns `B\n`, which is no prefix of it: the two runs
range over the macro table in different orders. -/
theorem output_monotone_counterexample :
    Process storedOrder noFiles (New (ascii "#define A B\n#define B c\nA\n" ++ ascii "x\n")) =
      ⟨ascii "c\nx\n", none⟩ ∧
    Process reverseOrder noFiles (New (ascii "#define A B\n#define B c\nA\n")) =
      ⟨ascii "B\n", none⟩ ∧
    ¬ ascii "B\n" <+: ascii "c\nx\n" := by
  refine ⟨by decide, by decide, ?_⟩
  intro h
  have := List.isPrefixOf_iff_prefix.mpr h
  revert this
  decide

/-- C19 (amended): for every input split at a line boundary into `A` followed
by `B`, with the hooks fixed and deterministic and the ranges over the macro
table visiting its entries in the same orders in both runs, if `Process`
succeeds on `A ++ B` then it succeeds on `A` alone, and the output for `A` is a
prefix of the output for `A ++ B`. -/
theorem output_monotone_same_order (ord : RangeOrder) (readFile : IncludeFn)
    (p : Preprocessor) (A B : List Nat) (hA : A = [] ∨ A.getLast? = some nl)
    (hok : (Process ord readFile (withInput p (A ++ B))).err = none) :
    (Process ord readFile (withInput p A)).err = none ∧
    (Process ord readFile (withInput p A)).out <+:
      (Process ord readFile (withInput p (A ++ B))).out := by
  have hsplit := scanFrom_append B A [] (fun _ => rfl)
    (fun hne => hA.resolve_left hne)
  have hAB : scanLines (withInput p (A ++ B)).s = scanFrom [] (A ++ B) := rfl
  have hAs : scanLines (withInput p A).s = scanFrom [] A := rfl
  have hinit : initState (withInput p (A ++ B)) = initState p := rfl
  have hinitA : initState (withInput p A) = initState p := rfl
  unfold Process at hok ⊢
  rw [hAB, hinit, run_withInput] at hok ⊢
  rw [hAs, hinitA, run_withInput]
  rw [hsplit] at hok ⊢
  cases hsA : (scanFrom [] A).2 with
  | some e =>
    simp only [hsA] at hok
    cases hr : run ord readFile p (initState p) (scanFrom [] A).1 with
    | error e1 => simp [hr] at hok
    | ok st => simp [hr] at hok
  | none =>
    simp only [hsA] at hok ⊢
    rw [run_append] at hok ⊢
    cases hr : run ord readFile p (initState p) (scanFrom [] A).1 with
    | error e1 => simp [hr] at hok
    | ok st1 =>
      simp only [hr] at hok ⊢
      cases hr2 : run ord readFile p st1 (scanFrom [] B).1 with
      | error e2 => simp [hr2] at hok
      | ok st2 =>
        simp only [hr2] at hok ⊢
        cases hsB : (scanFrom [] B).2 with
        | some e => simp [hsB] at hok
        | none =>
          simp only []
          exact ⟨trivial, run_src_grows ord readFile p _ st1 st2 hr2⟩

/-- Witness for C19 (amended): the input of the test "one define" cut after
its second line. -/
theorem output_monotone_same_order_witness :
    (Process storedOrder noFiles
        (withInput (New []) (ascii "\n#define FOO_BITS 8\n"))).err = none ∧
    (Process storedOrder noFiles (withInput (New []) (ascii "\n#define FOO_BITS 8\n"))).out <+:
      (Process storedOrder noFiles
        (withInput (New []) (ascii "\n#define FOO_BITS 8\n" ++ ascii "foo : FOO_BITS;\n"))).out :=
  output_monotone_same_order storedOrder noFiles (New []) (ascii "\n#define FOO_BITS 8\n")
    (ascii "foo : FOO_BITS;\n") (by decide) (by decide)

/-! ## C4 (amended): what a chained define expands to -/

/-- An occurrence of `a` in `s ++ y`, where `s` is an end of a text inside which
no occurrence of `a` can begin, lies in `y`. -/
theorem occurs_behind_clear (u a y : List Nat) (h : clearOf u a = true) :
    ∀ s, s <:+ u → a <:+: s ++ y → a <:+: y := by
  intro s
  induction s with
  | nil => intro _ ha; simpa using ha
  | cons c s ih =>
    intro hs ha
    rw [List.cons_append] at ha
    rcases List.infix_cons_iff.mp ha with hp | hi
    · exfalso
      have hc := clearOf_suffix u a (c :: s) h hs (by simp)
      rcases List.prefix_or_prefix_of_prefix hp (List.prefix_append (c :: s) y) with h1 | h1
      · exact hc.1 h1
      · exact hc.2 h1
    · exact ih ((List.suffix_cons c s).trans hs) hi

/-- Replacing `k` by `v` creates no occurrence of `a` when `a` and `v` do not
overlap: an occurrence of `a` in the rewritten text is one in the text. -/
theorem occurs_of_replaced (a k v : List Nat) (hk : k ≠ []) (hav : clearOf a v = true)
    (hva : clearOf v a = true) :
    ∀ (n : Nat) (z : List Nat), z.length ≤ n → a <:+: replaceFrom k v 0 z → a <:+: z := by
  intro n
  induction n with
  | zero =>
    intro z hz ha
    have hz0 : z = [] := List.length_eq_zero.mp (Nat.le_zero.mp hz)
    subst hz0
    simpa [replaceFrom] using ha
  | succ n ih =>
    intro z hz ha
    cases z with
    | nil => simpa [replaceFrom] using ha
    | cons c z =>
      by_cases m : k <+: c :: z
      · obtain ⟨t, ht⟩ := m
        rw [← ht, replaceFrom_match k v t hk] at ha
        have hin := occurs_behind_clear v a _ hva v (List.suffix_refl v) ha
        have hlen : t.length ≤ n := by
          have hl := congrArg List.length ht
          have hk1 : 0 < k.length := List.length_pos.mpr hk
          simp only [List.length_append, List.length_cons] at hl hz
          omega
        rw [← ht]
        exact (ih t hlen hin).trans (List.suffix_append k t).isInfix
      · rw [replaceFrom_copy k v z c m] at ha
        rcases List.infix_cons_iff.mp ha with hp | hi
        · rcases List.prefix_cons_iff.mp hp with h0 | ⟨t, ht, htz⟩
          · subst h0
            exact ⟨[], c :: z, rfl⟩
          · subst ht
            have hs := start_of_replaced (c :: t) k v hk hav z t (List.suffix_cons c t) htz
            exact ((List.prefix_cons_inj c).mpr hs).isInfix
        · exact (ih z (by simpa using hz) hi).trans (List.suffix_cons c z).isInfix

/-- On a line in which `A` does not occur, a table that holds `A` and `B`
rewrites `B` alone, in either range order, when `A` does not overlap the value
of `B`. -/
theorem apply_pair_absent (ord : RangeOrder) (n : Nat) (A X B S L : List Nat) (hB : B ≠ [])
    (hL : ¬ A <:+: L) (hov : noOverlap A S = true) :
    applyDefines (ord.pick n [(A, X), (B, S)]) L = replace L B S := by
  simp only [noOverlap, Bool.and_eq_true] at hov
  rcases pick_pair ord n (A, X) (B, S) with h | h
  · rw [h]
    show replace (replace L A X) B S = replace L B S
    rw [replace_absent L A X hL]
  · rw [h]
    show replace (replace L B S) A X = replace L B S
    apply replace_absent
    intro hin
    apply hL
    unfold replace at hin
    rw [if_neg hB] at hin
    exact occurs_of_replaced A B S hB hov.1 hov.2 _ L le_rfl hin

/-- C4 (amended): for two distinct macro names `A` and `B`, after a line
`#define A V` and a line `#define B W` with the default Define hook, the value
stored for `B` is `W` with every occurrence of `A` replaced by `V`.  It is fixed
when `B` is defined: a further define line for `A` leaves the value stored for
`B` as it is.  On a later plain line `B` is replaced by that stored value and
`A` by its current value, one after the other in the order of the range over
the table.  When `A` does not overlap the value stored for `B`, a plain line
in which `A` does not occur is output with `B` replaced by the stored value, in
every range order, and a redefinition of `A` before that line does not change
the output.  In particular after `#define A 8` and `#define B A` a plain line
is output with `A` and `B` both replaced by `8`, in every range order, which
for a line without `A` is the line with `B` replaced by `8`. -/
theorem chained_define_resolved_at_define (ord : RangeOrder) (readFile : IncludeFn)
    (p : Preprocessor) (dA dB fA fB A B v w : List Nat) (vs ws : List (List Nat))
    (hdef : p.Define = none)
    (hdA : hasPrefix dA bufDefine = true) (hfA : fields dA = fA :: A :: v :: vs)
    (hdB : hasPrefix dB bufDefine = true) (hfB : fields dB = fB :: B :: w :: ws)
    (hne : A ≠ B) :
    (∃ st, run ord readFile p ⟨[], [], 0, []⟩ [dA, dB] = .ok st ∧
      lookup A st.defines = some (join (v :: vs) [32]) ∧
      lookup B st.defines = some (replace (join (w :: ws) [32]) A (join (v :: vs) [32]))) ∧
    (∀ dA2 f2 v2 vs2, hasPrefix dA2 bufDefine = true → fields dA2 = f2 :: A :: v2 :: vs2 →
      ∃ st V2, run ord readFile p ⟨[], [], 0, []⟩ [dA, dB, dA2] = .ok st ∧
        lookup A st.defines = some V2 ∧
        lookup B st.defines = some (replace (join (w :: ws) [32]) A (join (v :: vs) [32])) ∧
        ∀ L, isPlain L → ∃ st2, run ord readFile p ⟨[], [], 0, []⟩ [dA, dB, dA2, L] = .ok st2 ∧
          (st2.src = replace (replace L A V2) B
              (replace (join (w :: ws) [32]) A (join (v :: vs) [32])) ++ [nl] ∨
            st2.src = replace (replace L B
              (replace (join (w :: ws) [32]) A (join (v :: vs) [32]))) A V2 ++ [nl])) ∧
    (∀ input L, scanLines input = ([ascii "#define A 8", ascii "#define B A", L], none) →
      isPlain L →
      Process ord readFile (New input) =
        ⟨replace (replace L (ascii "A") (ascii "8")) (ascii "B") (ascii "8") ++ [nl], none⟩ ∧
      (65 ∉ L → Process ord readFile (New input) =
        ⟨replace L (ascii "B") (ascii "8") ++ [nl], none⟩)) ∧
    (∀ L, isPlain L → ¬ A <:+: L →
      noOverlap A (replace (join (w :: ws) [32]) A (join (v :: vs) [32])) = true →
      (∃ st1, run ord readFile p ⟨[], [], 0, []⟩ [dA, dB, L] = .ok st1 ∧
        st1.src = replace L B (replace (join (w :: ws) [32]) A (join (v :: vs) [32])) ++ [nl]) ∧
      (∀ dA2 f2 v2 vs2, hasPrefix dA2 bufDefine = true → fields dA2 = f2 :: A :: v2 :: vs2 →
        ∃ st2, run ord readFile p ⟨[], [], 0, []⟩ [dA, dB, dA2, L] = .ok st2 ∧
          st2.src =
            replace L B (replace (join (w :: ws) [32]) A (join (v :: vs) [32])) ++ [nl])) := by
  have h1 : step ord readFile p ⟨[], [], 0, []⟩ dA =
      .ok ⟨[(A, join (v :: vs) [32])], [], 1, [.define A (join (v :: vs) [32])]⟩ := by
    rw [step_define ord readFile p _ dA fA A v vs A (join (v :: vs) [32]) hdA hfA
      (by simp [defineFn, hdef, defineNoChanges, pick_nil, applyDefines_nil])]
    simp [pick_nil, applyDefines_nil, setDefine]
  have h2 : step ord readFile p
      ⟨[(A, join (v :: vs) [32])], [], 1, [.define A (join (v :: vs) [32])]⟩ dB =
      .ok ⟨[(A, join (v :: vs) [32]),
          (B, replace (join (w :: ws) [32]) A (join (v :: vs) [32]))], [], 2,
        [.define A (join (v :: vs) [32]),
          .define B (replace (join (w :: ws) [32]) A (join (v :: vs) [32]))]⟩ := by
    rw [step_define ord readFile p _ dB fB B w ws B
      (replace (join (w :: ws) [32]) A (join (v :: vs) [32])) hdB hfB
      (by simp [defineFn, hdef, defineNoChanges, pick_small, applyDefines_single])]
    simp [pick_small, applyDefines_single, setDefine, hne]
  have hrun : run ord readFile p ⟨[], [], 0, []⟩ [dA, dB] =
      .ok ⟨[(A, join (v :: vs) [32]),
          (B, replace (join (w :: ws) [32]) A (join (v :: vs) [32]))], [], 2,
        [.define A (join (v :: vs) [32]),
          .define B (replace (join (w :: ws) [32]) A (join (v :: vs) [32]))]⟩ := by
    simp only [run, h1, h2]
  refine ⟨⟨_, hrun, by simp [lookup], by simp [lookup, hne]⟩, ?_, ?_, ?_⟩
  · intro dA2 f2 v2 vs2 hd2 hf2
    have h3 := step_define_default ord readFile p
      ⟨[(A, join (v :: vs) [32]),
          (B, replace (join (w :: ws) [32]) A (join (v :: vs) [32]))], [], 2,
        [.define A (join (v :: vs) [32]),
          .define B (replace (join (w :: ws) [32]) A (join (v :: vs) [32]))]⟩
      dA2 f2 A v2 vs2 hdef hd2 hf2
    simp only [setDefine, if_true] at h3
    refine ⟨_, _, by simp only [run, h1, h2, h3]; rfl, by simp only [lookup, if_true]; rfl,
      by simp [lookup, hne], ?_⟩
    intro L hL
    simp only [run, h1, h2, h3, step_plain ord readFile p _ L hL, stepPlain]
    refine ⟨_, rfl, ?_⟩
    rcases pick_pair ord (2 + 1) (A, _) (B, replace (join (w :: ws) [32]) A (join (v :: vs) [32]))
      with hp | hp
    · left
      rw [hp]
      rfl
    · right
      rw [hp]
      rfl
  · intro input L hscan hL
    simp only [Process, initState, New, hscan, run]
    rw [step_define ord readFile _ _ (ascii "#define A 8") (ascii "#define") (ascii "A")
      (ascii "8") [] (ascii "A") (ascii "8") (by decide) (by decide)
      (by simp [defineFn, defineNoChanges, pick_nil, applyDefines_nil]; decide)]
    simp only [pick_nil, applyDefines_nil, setDefine]
    rw [step_define ord readFile _ _ (ascii "#define B A") (ascii "#define") (ascii "B")
      (ascii "A") [] (ascii "B") (ascii "8") (by decide) (by decide)
      (by simp [defineFn, defineNoChanges, pick_small, applyDefines_single]; decide)]
    have hset : setDefine (ascii "B") (ascii "8") [(ascii "A", ascii "8")] =
        [([65], [56]), ([66], [56])] := by decide
    simp only [hset, step_plain ord readFile _ _ L hL, stepPlain, apply_AB]
    refine ⟨rfl, fun hA => ?_⟩
    have hid : replace L [65] [56] = L := by
      rw [replace_byte]
      conv_rhs => rw [← List.map_id L]
      apply List.map_congr_left
      intro c hc
      have : c ≠ 65 := fun e => hA (e ▸ hc)
      simp [this]
    rw [hid]
    rfl
  · intro L hL hAL hov
    have hB : B ≠ [] := (fields_good dB B (by rw [hfB]; simp)).1
    constructor
    · simp only [run, h1, h2, step_plain ord readFile p _ L hL, stepPlain]
      refine ⟨_, rfl, ?_⟩
      simp only [List.nil_append]
      rw [apply_pair_absent ord _ A _ B _ L hB hAL hov]
    · intro dA2 f2 v2 vs2 hd2 hf2
      have h3 := step_define_default ord readFile p
        ⟨[(A, join (v :: vs) [32]),
            (B, replace (join (w :: ws) [32]) A (join (v :: vs) [32]))], [], 2,
          [.define A (join (v :: vs) [32]),
            .define B (replace (join (w :: ws) [32]) A (join (v :: vs) [32]))]⟩
        dA2 f2 A v2 vs2 hdef hd2 hf2
      simp only [setDefine, if_true] at h3
      simp only [run, h1, h2, h3, step_plain ord readFile p _ L hL, stepPlain]
      refine ⟨_, rfl, ?_⟩
      simp only [List.nil_append]
      rw [apply_pair_absent ord _ A _ B _ L hB hAL hov]

/-- Witness for C4 (amended), on `#define FOO_BITS 8` and
`#define BAR_BITS FOO_BITS` of the test "define uses another defined value":
the line `foo : BAR_BITS;` comes out as `foo : 8;`, also after
`#define FOO_BITS 16`; and on a line that uses `B` after `#define A 8` and
`#define B A`. -/
theorem chained_define_resolved_at_define_witness :
    (∃ st, run reverseOrder noFiles (New []) ⟨[], [], 0, []⟩
        [ascii "#define FOO_BITS 8", ascii "#define BAR_BITS FOO_BITS"] = .ok st ∧
      lookup (ascii "FOO_BITS") st.defines = some (ascii "8") ∧
      lookup (ascii "BAR_BITS") st.defines = some (ascii "8")) ∧
    Process reverseOrder noFiles (New (ascii "#define A 8\n#define B A\nfoo : B;\n")) =
      ⟨ascii "foo : 8;\n", none⟩ ∧
    (∃ st1, run reverseOrder noFiles (New []) ⟨[], [], 0, []⟩
        [ascii "#define FOO_BITS 8", ascii "#define BAR_BITS FOO_BITS",
          ascii "foo : BAR_BITS;"] = .ok st1 ∧
      st1.src = ascii "foo : 8;\n") ∧
    (∃ st2, run reverseOrder noFiles (New []) ⟨[], [], 0, []⟩
        [ascii "#define FOO_BITS 8", ascii "#define BAR_BITS FOO_BITS",
          ascii "#define FOO_BITS 16", ascii "foo : BAR_BITS;"] = .ok st2 ∧
      st2.src = ascii "foo : 8;\n") :=
  ⟨(chained_define_resolved_at_define reverseOrder noFiles (New [])
      (ascii "#define FOO_BITS 8") (ascii "#define BAR_BITS FOO_BITS") (ascii "#define")
      (ascii "#define") (ascii "FOO_BITS") (ascii "BAR_BITS") (ascii "8") (ascii "FOO_BITS")
      [] [] rfl (by decide) (by decide) (by decide) (by decide) (by decide)).1,
   ((chained_define_resolved_at_define reverseOrder noFiles (New [])
      (ascii "#define FOO_BITS 8") (ascii "#define BAR_BITS FOO_BITS") (ascii "#define")
      (ascii "#define") (ascii "FOO_BITS") (ascii "BAR_BITS") (ascii "8") (ascii "FOO_BITS")
      [] [] rfl (by decide) (by decide) (by decide) (by decide) (by decide)).2.2.1
      (ascii "#define A 8\n#define B A\nfoo : B;\n") (ascii "foo : B;")
      (by decide) (by decide)).2 (by decide),
   ((chained_define_resolved_at_define reverseOrder noFiles (New [])
      (ascii "#define FOO_BITS 8") (ascii "#define BAR_BITS FOO_BITS") (ascii "#define")
      (ascii "#define") (ascii "FOO_BITS") (ascii "BAR_BITS") (ascii "8") (ascii "FOO_BITS")
      [] [] rfl (by decide) (by decide) (by decide) (by decide) (by decide)).2.2.2
      (ascii "foo : BAR_BITS;") (by decide) (by decide) (by decide)).1,
   ((chained_define_resolved_at_define reverseOrder noFiles (New [])
      (ascii "#define FOO_BITS 8") (ascii "#define BAR_BITS FOO_BITS") (ascii "#define")
      (ascii "#define") (ascii "FOO_BITS") (ascii "BAR_BITS") (ascii "8") (ascii "FOO_BITS")
      [] [] rfl (by decide) (by decide) (by decide) (by decide) (by decide)).2.2.2
      (ascii "foo : BAR_BITS;") (by decide) (by decide) (by decide)).2
      (ascii "#define FOO_BITS 16") (ascii "#define") (ascii "16") []
      (by decide) (by decide)⟩

end P4
